import Mathlib

/-!
Verification of the unify-mdm matching engine and golden-record subsystem.

The definitions below are a shallow embedding of
`backend/app/services/matching_engine.py` and
`backend/app/services/golden_record_service.py` (plus the review endpoint in
`backend/app/api/matching.py`).  Conventions of the embedding:

* Python floats are modelled as exact rationals (`ℚ`).  `round(x, 4)` is
  modelled as exact rational rounding to 4 decimals (`round4`); no claim
  depends on the float tie-breaking mode.
* A nullable string column and the empty string are identified: the code
  treats `None` and `""` identically (`not value`, `value or ""`,
  `getattr(..., None)` followed by truthiness tests), so record fields are
  plain `String`s with `""` for NULL/absent.
* Opaque uuid primary keys of rows created by the engine (golden records,
  match candidates) are modelled as natural numbers drawn from counters in
  the store state; record ids, which come from ingestion, stay `String`.
* `created_at` / `updated_at` / `reviewed_at` timestamps are not modelled;
  no claim mentions them.
* The external `jellyfish.metaphone` function is not embedded: every claim
  below depends at most on it being a deterministic function, so it is
  passed as an explicit parameter `mp : String → String`.
* `jellyfish.levenshtein_distance`, `jellyfish.jaro_winkler_similarity` and
  `thefuzz.fuzz.token_sort_ratio` are external library calls.  Modelled from
  the spec: the standard unit-cost Levenshtein distance, the standard
  Jaro-Winkler score (greedy windowed matching, transposition count, Winkler
  prefix boost `p = 0.1` capped at 4 with boost threshold `0.7`), and the
  token-sort ratio `2*M/(len a + len b)` with `M` the length of the longest
  common subsequence of the token-sorted forms (spec section 4.2).
-/

namespace Unify

/-- The Standard Field Set (`CUSTOMER_FIELDS` in `golden_record_service.py`,
columns of `CustomerRecord` in `models.py`). -/
inductive Field where
  | company_name | first_name | last_name | email | phone
  | address_line1 | address_line2 | city | state | postal_code
  | country | tax_id | website
deriving DecidableEq, Fintype

/-- `CUSTOMER_FIELDS`, in the declared order. -/
def CUSTOMER_FIELDS : List Field :=
  [.company_name, .first_name, .last_name, .email, .phone,
   .address_line1, .address_line2, .city, .state, .postal_code,
   .country, .tax_id, .website]

/-- `MatchStatus` enum from `models.py`. -/
inductive MatchStatus where
  | pending | approved | rejected | merged
deriving DecidableEq

/-- A `CustomerRecord` row (`models.py`); only the columns the claims touch. -/
structure CustomerRecord where
  id : String
  source_id : String
  fields : Field → String
  golden_record_id : Option Nat

instance : DecidableEq CustomerRecord
  | ⟨i1, s1, f1, g1⟩, ⟨i2, s2, f2, g2⟩ =>
    decidable_of_iff (i1 = i2 ∧ s1 = s2 ∧ f1 = f2 ∧ g1 = g2) (by
      constructor
      · rintro ⟨rfl, rfl, rfl, rfl⟩
        rfl
      · intro h
        injection h with h1 h2 h3 h4
        exact ⟨h1, h2, h3, h4⟩)

/-- A `MatchCandidate` row (`models.py`). -/
structure MatchCandidate where
  id : Nat
  record_a_id : String
  record_b_id : String
  overall_score : ℚ
  field_scores : List (Field × ℚ)
  match_method : String
  status : MatchStatus
  notes : Option String

/-- A `GoldenRecord` row (`models.py`). -/
structure GoldenRecord where
  id : Nat
  fields : Field → String
  source_count : Nat

/-- The transactional store: tables plus id counters for rows the engine
creates (uuid uniqueness is modelled by the counters). -/
structure Db where
  records : List CustomerRecord
  candidates : List MatchCandidate
  goldens : List GoldenRecord
  nextCid : Nat
  nextGid : Nat

/-! ## Normalizers (`matching_engine.py`) -/

/-- Strip leading and trailing whitespace (Python `str.strip`). -/
def trimWs (l : List Char) : List Char :=
  ((l.dropWhile Char.isWhitespace).reverse.dropWhile Char.isWhitespace).reverse

/-- Collapse runs of whitespace to a single space (`re.sub(r'\s+', ' ', .)`);
the flag records whether the previous character was whitespace. -/
def collapseWs : Bool → List Char → List Char
  | _, [] => []
  | prevWs, c :: rest =>
    if c.isWhitespace then
      if prevWs then collapseWs true rest else ' ' :: collapseWs true rest
    else c :: collapseWs false rest

/-- `normalize_text`: lowercase, strip, collapse internal whitespace. -/
def normalize_text (s : String) : String :=
  ⟨collapseWs false (trimWs s.toLower.data)⟩

/-- `normalize_phone`: keep only digits (`re.sub(r'[^\d]', '', .)`). -/
def normalize_phone (s : String) : String :=
  ⟨s.data.filter Char.isDigit⟩

/-- `normalize_email`: lowercase, strip. -/
def normalize_email (s : String) : String :=
  ⟨trimWs s.toLower.data⟩

/-! ## Similarity kernels -/

/-- `compare_exact`. -/
def compare_exact (a b : String) : ℚ :=
  if a = "" ∨ b = "" then 0 else if a = b then 1 else 0

/-- Unit-cost Levenshtein edit distance (`jellyfish.levenshtein_distance`;
modelled from the spec: the standard edit distance). -/
def levDist : List Char → List Char → Nat
  | [], ys => ys.length
  | x :: xs, [] => (x :: xs).length
  | x :: xs, y :: ys =>
    if x = y then levDist xs ys
    else 1 + min (levDist xs ys) (min (levDist (x :: xs) ys) (levDist xs (y :: ys)))
termination_by xs ys => xs.length + ys.length
decreasing_by all_goals simp_arith

/-- `compare_levenshtein`: normalized Levenshtein similarity. -/
def compare_levenshtein (a b : String) : ℚ :=
  if a = "" ∨ b = "" then 0
  else if a = b then 1
  else 1 - (levDist a.data b.data : ℚ) / (max a.length b.length : Nat)

/-! Jaro-Winkler (`jellyfish.jaro_winkler_similarity`; modelled from the
spec: the standard Jaro-Winkler score).  `scanWindow` looks for the first
index `j` in `[lo, hi]` of `t` that is unmatched and carries the character
`c`; `jaroScan` runs it for each character of `s` in order, flagging matched
positions of `t` and collecting the matched characters of `s`. -/

def scanWindow (c : Char) (t : List Char) (flags : List Bool) : Nat → Nat → Option Nat
  | lo, hi =>
    if _h : hi < lo then none
    else if lo ≥ t.length then none
    else if flags.getD lo true = false ∧ t.getD lo ' ' = c then some lo
    else scanWindow c t flags (lo + 1) hi
termination_by lo hi => hi + 1 - lo
decreasing_by omega

def jaroScan (t : List Char) (sr : Nat) : List Char → Nat → List Bool → (List Bool × List Char)
  | [], _, flags => (flags, [])
  | c :: rest, i, flags =>
    match scanWindow c t flags (i - sr) (min (i + sr) (t.length - 1)) with
    | some j =>
      let r := jaroScan t sr rest (i + 1) (flags.set j true)
      (r.1, c :: r.2)
    | none => jaroScan t sr rest (i + 1) flags

/-- Length of the common prefix of two strings, capped. -/
def commonPrefixLen : List Char → List Char → Nat → Nat
  | a :: as, b :: bs, k + 1 => if a = b then 1 + commonPrefixLen as bs k else 0
  | _, _, _ => 0

/-- The Jaro similarity. -/
def jaroSim (s t : List Char) : ℚ :=
  if s.length = 0 ∨ t.length = 0 then 0
  else
    let sr := (max s.length t.length) / 2 - 1
    let scan := jaroScan t sr s 0 (List.replicate t.length false)
    let u := scan.2
    if u.length = 0 then 0
    else
      let v := (t.zip scan.1).filterMap (fun p => if p.2 then some p.1 else none)
      let mism := ((u.zip v).filter (fun p => decide (p.1 ≠ p.2))).length
      let c : ℚ := u.length
      (c / s.length + c / t.length + (c - (mism : ℚ) / 2) / c) / 3

/-- The Jaro-Winkler similarity: Jaro plus prefix boost when above `0.7`. -/
def jaroWinkler (s t : List Char) : ℚ :=
  let w := jaroSim s t
  if w > 7/10 then
    w + (commonPrefixLen s t 4 : ℚ) * (1/10) * (1 - w)
  else w

/-- `compare_jaro_winkler`. -/
def compare_jaro_winkler (a b : String) : ℚ :=
  if a = "" ∨ b = "" then 0 else jaroWinkler a.data b.data

/-- `compare_phonetic`: equal Metaphone codes give `1.0`, otherwise the
normalized edit similarity of the two codes.  The Metaphone encoder itself
(`jellyfish.metaphone`) is an external deterministic function, passed in as
`mp`. -/
def compare_phonetic (mp : String → String) (a b : String) : ℚ :=
  if a = "" ∨ b = "" then 0
  else if mp a = mp b then 1
  else compare_levenshtein (mp a) (mp b)

/-- Split on whitespace runs, dropping empty tokens (Python `str.split()`). -/
def splitWsGo : List Char → List Char → List (List Char)
  | [], acc => if acc.isEmpty then [] else [acc.reverse]
  | c :: rest, acc =>
    if c.isWhitespace then
      if acc.isEmpty then splitWsGo rest [] else acc.reverse :: splitWsGo rest []
    else splitWsGo rest (c :: acc)

def splitWs (l : List Char) : List (List Char) := splitWsGo l []

/-- Lexicographic order on character lists, for the token sort. -/
def lexLe : List Char → List Char → Bool
  | [], _ => true
  | _ :: _, [] => false
  | a :: as, b :: bs => if a < b then true else if b < a then false else lexLe as bs

/-- Length of the longest common subsequence. -/
def lcsLen : List Char → List Char → Nat
  | [], _ => 0
  | _ :: _, [] => 0
  | a :: as, b :: bs =>
    if a = b then 1 + lcsLen as bs
    else max (lcsLen (a :: as) bs) (lcsLen as (b :: bs))
termination_by xs ys => xs.length + ys.length
decreasing_by all_goals simp_arith

/-- `compare_fuzzy_token` (`fuzz.token_sort_ratio(a, b) / 100`): sort the
whitespace tokens of each side, join with single spaces, and take the ratio
`2*M/(len a + len b)` with `M` the LCS length of the token-sorted forms. -/
def compare_fuzzy_token (a b : String) : ℚ :=
  if a = "" ∨ b = "" then 0
  else
    let ta := List.intercalate [' '] ((splitWs a.data).mergeSort lexLe)
    let tb := List.intercalate [' '] ((splitWs b.data).mergeSort lexLe)
    (2 * lcsLen ta tb : ℚ) / ((ta.length + tb.length : Nat) : ℚ)

/-- The website normalization chain of `compare_field`: `normalize_text`,
then remove every occurrence of `https://`, then of `http://`, then of
`www.` (Python `str.replace` removes all occurrences), then strip all
trailing slashes (`str.rstrip("/")`). -/
def replaceAll (p0 : Char) (ps : List Char) : List Char → List Char
  | [] => []
  | c :: rest =>
    if (p0 :: ps).isPrefixOf (c :: rest) then replaceAll p0 ps (rest.drop ps.length)
    else c :: replaceAll p0 ps rest
termination_by l => l.length
decreasing_by
  · simp only [List.length_cons]
    have := List.length_drop ps.length rest
    omega
  · simp

def normalize_website (s : String) : String :=
  ⟨(((((normalize_text s).data
      |> replaceAll 'h' "ttps://".data)
      |> replaceAll 'h' "ttp://".data)
      |> replaceAll 'w' "ww.".data).reverse.dropWhile (· = '/')).reverse⟩

/-! ## Field comparator (`compare_field`) -/

/-- `compare_field` from `matching_engine.py`, with the dispatch keyed by the
`Field` enum (the code keys on the field-name string; every weight map the
engine is ever called with uses standard field names, and a non-standard
name behaves exactly like an absent field, so nothing is lost). -/
def compare_field (mp : String → String) (f : Field) (value_a value_b : String) : ℚ :=
  if value_a = "" ∧ value_b = "" then 0
  else if value_a = "" ∨ value_b = "" then 0
  else
    match f with
    | .email => compare_exact (normalize_email value_a) (normalize_email value_b)
    | .tax_id => compare_exact (normalize_text value_a) (normalize_text value_b)
    | .phone =>
      let a := normalize_phone value_a
      let b := normalize_phone value_b
      if a = "" ∨ b = "" then 0
      else if b.data.isSuffixOf a.data ∨ a.data.isSuffixOf b.data then 95/100
      else compare_levenshtein a b
    | .first_name =>
      max (compare_jaro_winkler (normalize_text value_a) (normalize_text value_b))
          (compare_phonetic mp (normalize_text value_a) (normalize_text value_b))
    | .last_name =>
      max (compare_jaro_winkler (normalize_text value_a) (normalize_text value_b))
          (compare_phonetic mp (normalize_text value_a) (normalize_text value_b))
    | .company_name =>
      max (compare_jaro_winkler (normalize_text value_a) (normalize_text value_b))
          (max (compare_fuzzy_token (normalize_text value_a) (normalize_text value_b))
               (compare_levenshtein (normalize_text value_a) (normalize_text value_b)))
    | .address_line1 =>
      max (compare_fuzzy_token (normalize_text value_a) (normalize_text value_b))
          (compare_levenshtein (normalize_text value_a) (normalize_text value_b))
    | .address_line2 =>
      max (compare_fuzzy_token (normalize_text value_a) (normalize_text value_b))
          (compare_levenshtein (normalize_text value_a) (normalize_text value_b))
    | .website =>
      let a := normalize_website value_a
      let b := normalize_website value_b
      if a ≠ "" ∧ b ≠ "" then compare_exact a b else 0
    | _ => compare_jaro_winkler (normalize_text value_a) (normalize_text value_b)

/-! ## Record comparator (`compare_records`) -/

/-- `DEFAULT_FIELD_WEIGHTS`, in dict insertion order. -/
def DEFAULT_FIELD_WEIGHTS : List (Field × ℚ) :=
  [(.company_name, 25/100), (.email, 20/100), (.phone, 10/100),
   (.first_name, 10/100), (.last_name, 10/100), (.address_line1, 5/100),
   (.city, 5/100), (.postal_code, 5/100), (.tax_id, 5/100), (.website, 5/100)]

/-- `round(x, 4)` on an exact rational (halves rounded to the nearest;
no claim depends on the tie-breaking mode). -/
def round4 (q : ℚ) : ℚ := (round (q * 10000) : ℤ) / 10000

/-- The accumulation loop of `compare_records`: per-field scores, weighted
sum and total weight over the fields of the weight map. -/
def scoreFold (mp : String → String) (a b : CustomerRecord) :
    List (Field × ℚ) → (List (Field × ℚ) × ℚ × ℚ)
  | [] => ([], 0, 0)
  | (f, w) :: rest =>
    let r := scoreFold mp a b rest
    if a.fields f = "" ∧ b.fields f = "" then r
    else
      let s := compare_field mp f (a.fields f) (b.fields f)
      ((f, round4 s) :: r.1, s * w + r.2.1, w + r.2.2)

/-- `compare_records`: overall score (dynamically normalized weighted mean,
rounded to 4 decimals) and the per-field score map. -/
def compare_records (mp : String → String) (record_a record_b : CustomerRecord)
    (field_weights : Option (List (Field × ℚ))) : ℚ × List (Field × ℚ) :=
  let weights := match field_weights with
    | some (p :: ps) => p :: ps
    | _ => DEFAULT_FIELD_WEIGHTS
  let r := scoreFold mp record_a record_b weights
  (if 0 < r.2.2 then round4 (r.2.1 / r.2.2) else 0, r.1)

/-! ## Basic kernel lemmas -/

theorem data_ne_nil_of_ne_empty {s : String} (h : s ≠ "") : s.data ≠ [] := by
  intro hd
  exact h (String.ext (by simpa using hd))

theorem compare_exact_self {a : String} (h : a ≠ "") : compare_exact a a = 1 := by
  simp [compare_exact, h]

theorem compare_levenshtein_self {a : String} (h : a ≠ "") :
    compare_levenshtein a a = 1 := by
  simp [compare_levenshtein, h]

theorem compare_phonetic_self (mp : String → String) {a : String} (h : a ≠ "") :
    compare_phonetic mp a a = 1 := by
  simp [compare_phonetic, h]

theorem lcsLen_le_left : ∀ n (x y : List Char), x.length + y.length ≤ n →
    lcsLen x y ≤ x.length := by
  intro n
  induction n with
  | zero =>
    intro x y h
    match x, y with
    | [], _ => simp [lcsLen]
    | _ :: _, [] => simp [lcsLen]
    | _ :: _, _ :: _ => simp at h
  | succ k ih =>
    intro x y h
    match x, y with
    | [], _ => simp [lcsLen]
    | _ :: _, [] => simp [lcsLen]
    | a :: as, b :: bs =>
      simp only [lcsLen]
      by_cases hab : a = b
      · simp only [hab, if_pos rfl]
        have := ih as bs (by simp at h; omega)
        simp
        omega
      · rw [if_neg hab]
        have h1 := ih (a :: as) bs (by simp at h ⊢; omega)
        have h2 := ih as (b :: bs) (by simp at h ⊢; omega)
        simp at h1 h2 ⊢
        omega

theorem lcsLen_le_right : ∀ n (x y : List Char), x.length + y.length ≤ n →
    lcsLen x y ≤ y.length := by
  intro n
  induction n with
  | zero =>
    intro x y h
    match x, y with
    | [], _ => simp [lcsLen]
    | _ :: _, [] => simp [lcsLen]
    | _ :: _, _ :: _ => simp at h
  | succ k ih =>
    intro x y h
    match x, y with
    | [], _ => simp [lcsLen]
    | _ :: _, [] => simp [lcsLen]
    | a :: as, b :: bs =>
      simp only [lcsLen]
      by_cases hab : a = b
      · simp only [hab, if_pos rfl]
        have := ih as bs (by simp at h; omega)
        simp
        omega
      · rw [if_neg hab]
        have h1 := ih (a :: as) bs (by simp at h ⊢; omega)
        have h2 := ih as (b :: bs) (by simp at h ⊢; omega)
        simp at h1 h2 ⊢
        omega

theorem compare_fuzzy_token_le_one (a b : String) : compare_fuzzy_token a b ≤ 1 := by
  unfold compare_fuzzy_token
  by_cases h : a = "" ∨ b = ""
  · simp [h]
  · rw [if_neg h]
    set ta := List.intercalate [' '] ((splitWs a.data).mergeSort lexLe) with hta
    set tb := List.intercalate [' '] ((splitWs b.data).mergeSort lexLe) with htb
    have h1 : lcsLen ta tb ≤ ta.length := lcsLen_le_left _ ta tb le_rfl
    have h2 : lcsLen ta tb ≤ tb.length := lcsLen_le_right _ ta tb le_rfl
    apply div_le_one_of_le₀
    · have : 2 * lcsLen ta tb ≤ ta.length + tb.length := by omega
      exact_mod_cast this
    · positivity

/-! ## Jaro-Winkler identity -/

/-- Flag list with the first `i` of `n` positions set. -/
def maskFlags : Nat → Nat → List Bool
  | 0, n => List.replicate n false
  | _ + 1, 0 => []
  | i + 1, n + 1 => true :: maskFlags i n

theorem maskFlags_full : ∀ n, maskFlags n n = List.replicate n true := by
  intro n
  induction n with
  | zero => rfl
  | succ k ih => simp [maskFlags, ih, List.replicate]

theorem maskFlags_getD_lt : ∀ i n j, j < i → j < n →
    (maskFlags i n).getD j true = true := by
  intro i
  induction i with
  | zero => omega
  | succ k ih =>
    intro n j hj hn
    match n with
    | 0 => omega
    | m + 1 =>
      match j with
      | 0 => rfl
      | j' + 1 => simpa [maskFlags] using ih m j' (by omega) (by omega)

theorem maskFlags_getD_self : ∀ i n, i < n → (maskFlags i n).getD i true = false := by
  intro i
  induction i with
  | zero =>
    intro n hn
    match n with
    | m + 1 => rfl
  | succ k ih =>
    intro n hn
    match n with
    | m + 1 => simpa [maskFlags] using ih m (by omega)

theorem maskFlags_set : ∀ i n, i < n →
    (maskFlags i n).set i true = maskFlags (i + 1) n := by
  intro i
  induction i with
  | zero =>
    intro n hn
    match n with
    | m + 1 => simp [maskFlags, List.replicate, List.set]
  | succ k ih =>
    intro n hn
    match n with
    | m + 1 => simpa [maskFlags, List.set] using ih m (by omega)

theorem scanWindow_hit (c : Char) (t : List Char) (flags : List Bool) (hi i : Nat)
    (hit : flags.getD i true = false) (htc : t.getD i ' ' = c) (hlen : i < t.length)
    (hhi : i ≤ hi) (hflags : ∀ j, j < i → flags.getD j true = true) :
    ∀ fuel lo, i - lo = fuel → lo ≤ i → scanWindow c t flags lo hi = some i := by
  intro fuel
  induction fuel with
  | zero =>
    intro lo h0 hle
    have : lo = i := by omega
    subst this
    unfold scanWindow
    rw [dif_neg (by omega), if_neg (by omega), if_pos ⟨hit, htc⟩]
  | succ k ih =>
    intro lo h hle
    have hlo : lo < i := by omega
    unfold scanWindow
    rw [dif_neg (by omega), if_neg (by omega),
      if_neg (fun hc => by rw [hflags lo hlo] at hc; exact absurd hc.1 (by simp)),
      ih (lo + 1) (by omega) (by omega)]

theorem jaroScan_self (s : List Char) (sr : Nat) :
    ∀ (suf pre : List Char), s = pre ++ suf →
      jaroScan s sr suf pre.length (maskFlags pre.length s.length) =
        (List.replicate s.length true, suf) := by
  intro suf
  induction suf with
  | nil =>
    intro pre hpre
    subst hpre
    simp [jaroScan, maskFlags_full]
  | cons c rest ih =>
    intro pre hpre
    have hlen : pre.length < s.length := by subst hpre; simp
    have hgd : s.getD pre.length ' ' = c := by
      subst hpre
      simp [List.getD, List.getElem?_append_right (Nat.le_refl pre.length)]
    rw [jaroScan, scanWindow_hit c s (maskFlags pre.length s.length) _ pre.length
      (maskFlags_getD_self _ _ hlen) hgd hlen (le_min (by omega) (by omega))
      (fun j hj => maskFlags_getD_lt _ _ j hj (by omega)) _ (pre.length - sr) rfl (by omega)]
    simp only
    rw [maskFlags_set _ _ hlen]
    have : pre.length + 1 = (pre ++ [c]).length := by simp
    rw [this, ih (pre ++ [c]) (by simpa using hpre)]

theorem zip_replicate_filterMap : ∀ (l : List Char),
    ((l.zip (List.replicate l.length true)).filterMap
      (fun p => if p.2 then some p.1 else none)) = l := by
  intro l
  induction l with
  | nil => rfl
  | cons c rest ih => simpa [List.replicate] using ih

theorem zip_self_mism : ∀ (l : List Char),
    ((l.zip l).filter (fun p => decide (p.1 ≠ p.2))).length = 0 := by
  intro l
  induction l with
  | nil => rfl
  | cons c rest ih => simpa using ih

theorem jaroSim_self {s : List Char} (h : s ≠ []) : jaroSim s s = 1 := by
  have hn : s.length ≠ 0 := by simpa using h
  unfold jaroSim
  rw [if_neg (by omega)]
  have hscan := jaroScan_self s ((max s.length s.length) / 2 - 1) s [] rfl
  simp only [List.length_nil, maskFlags, List.nil_append] at hscan
  simp only [hscan, zip_replicate_filterMap, zip_self_mism, List.length_replicate]
  rw [if_neg hn]
  have hq : (s.length : ℚ) ≠ 0 := by exact_mod_cast hn
  push_cast
  field_simp
  norm_num

theorem jaroWinkler_self {s : List Char} (h : s ≠ []) : jaroWinkler s s = 1 := by
  unfold jaroWinkler
  rw [jaroSim_self h]
  norm_num

theorem compare_jaro_winkler_self {a : String} (h : a ≠ "") :
    compare_jaro_winkler a a = 1 := by
  unfold compare_jaro_winkler
  rw [if_neg (by simp [h]), jaroWinkler_self (data_ne_nil_of_ne_empty h)]

/-! ## Per-field self-comparison -/

/-- The normalizer that the `compare_field` branch of a field applies to each side. -/
def selfNorm : Field → String → String
  | .email, v => normalize_email v
  | .phone, v => normalize_phone v
  | .website, v => normalize_website v
  | _, v => normalize_text v

theorem compare_field_self (mp : String → String) (f : Field) (v : String)
    (hv : v ≠ "") (hf : f ≠ .phone) (hn : selfNorm f v ≠ "") :
    compare_field mp f v v = 1 := by
  have h2 : ¬(v = "" ∧ v = "") := fun h => hv h.1
  have h3 : ¬(v = "" ∨ v = "") := fun h => hv (h.elim id id)
  cases f with
  | phone => exact absurd rfl hf
  | email =>
    simp only [selfNorm] at hn
    simp only [compare_field, if_neg h2, if_neg h3]
    exact compare_exact_self hn
  | tax_id =>
    simp only [selfNorm] at hn
    simp only [compare_field, if_neg h2, if_neg h3]
    exact compare_exact_self hn
  | first_name =>
    simp only [selfNorm] at hn
    simp only [compare_field, if_neg h2, if_neg h3]
    rw [compare_jaro_winkler_self hn, compare_phonetic_self mp hn]
    simp
  | last_name =>
    simp only [selfNorm] at hn
    simp only [compare_field, if_neg h2, if_neg h3]
    rw [compare_jaro_winkler_self hn, compare_phonetic_self mp hn]
    simp
  | company_name =>
    simp only [selfNorm] at hn
    simp only [compare_field, if_neg h2, if_neg h3]
    rw [compare_jaro_winkler_self hn, compare_levenshtein_self hn,
      max_eq_right (compare_fuzzy_token_le_one _ _)]
    simp
  | address_line1 =>
    simp only [selfNorm] at hn
    simp only [compare_field, if_neg h2, if_neg h3]
    rw [compare_levenshtein_self hn, max_eq_right (compare_fuzzy_token_le_one _ _)]
  | address_line2 =>
    simp only [selfNorm] at hn
    simp only [compare_field, if_neg h2, if_neg h3]
    rw [compare_levenshtein_self hn, max_eq_right (compare_fuzzy_token_le_one _ _)]
  | website =>
    simp only [selfNorm] at hn
    simp only [compare_field, if_neg h2, if_neg h3]
    rw [if_pos ⟨hn, hn⟩]
    exact compare_exact_self hn
  | city =>
    simp only [selfNorm] at hn
    simp only [compare_field, if_neg h2, if_neg h3]
    exact compare_jaro_winkler_self hn
  | state =>
    simp only [selfNorm] at hn
    simp only [compare_field, if_neg h2, if_neg h3]
    exact compare_jaro_winkler_self hn
  | postal_code =>
    simp only [selfNorm] at hn
    simp only [compare_field, if_neg h2, if_neg h3]
    exact compare_jaro_winkler_self hn
  | country =>
    simp only [selfNorm] at hn
    simp only [compare_field, if_neg h2, if_neg h3]
    exact compare_jaro_winkler_self hn

theorem scoreFold_self (mp : String → String) (a : CustomerRecord) :
    ∀ ws : List (Field × ℚ),
      (∀ p ∈ ws, 0 < p.2) →
      (∀ p ∈ ws, a.fields p.1 ≠ "" →
        compare_field mp p.1 (a.fields p.1) (a.fields p.1) = 1) →
      (scoreFold mp a a ws).2.1 = (scoreFold mp a a ws).2.2 ∧
      0 ≤ (scoreFold mp a a ws).2.2 ∧
      ((∃ p ∈ ws, a.fields p.1 ≠ "") → 0 < (scoreFold mp a a ws).2.2) := by
  intro ws
  induction ws with
  | nil =>
    intro _ _
    refine ⟨rfl, le_rfl, ?_⟩
    rintro ⟨p, hp, _⟩
    cases hp
  | cons q rest ih =>
    obtain ⟨f, w⟩ := q
    intro hpos hone
    obtain ⟨e1, e2, e3⟩ := ih (fun p hp => hpos p (List.mem_cons_of_mem _ hp))
      (fun p hp => hone p (List.mem_cons_of_mem _ hp))
    by_cases hq : a.fields f = ""
    · have hcond : a.fields f = "" ∧ a.fields f = "" := ⟨hq, hq⟩
      simp only [scoreFold, if_pos hcond]
      refine ⟨e1, e2, ?_⟩
      rintro ⟨p, hp, hne⟩
      rcases List.mem_cons.mp hp with h | h
      · rw [h] at hne
        exact absurd hq hne
      · exact e3 ⟨p, h, hne⟩
    · have hcond : ¬(a.fields f = "" ∧ a.fields f = "") := fun hc => hq hc.1
      simp only [scoreFold, if_neg hcond]
      rw [hone (f, w) (List.mem_cons_self _ _) hq]
      have hw := hpos (f, w) (List.mem_cons_self _ _)
      simp only at hw
      exact ⟨by rw [e1]; ring, by linarith, fun _ => by linarith⟩

theorem round4_one : round4 1 = 1 := by
  unfold round4
  rw [show ((1 : ℚ) * 10000) = ((10000 : ℤ) : ℚ) by norm_num, round_intCast]
  norm_num

/-- C4 counterexample input: a record whose only populated weight-map field
is `phone`. -/
def phoneOnlyRecord : CustomerRecord :=
  ⟨"r1", "s1", (fun f => match f with | .phone => "5550101" | _ => ""), none⟩

/-- C4, counterexample.  `phoneOnlyRecord` has a non-empty field that is
present in the default weight map, yet its self-comparison scores
`0.95` (the phone suffix rule fires on equal digit strings), not `1.0`:
the identity property of the claim fails. -/
theorem record_self_identity_counterexample :
    phoneOnlyRecord.fields .phone ≠ "" ∧
    Field.phone ∈ DEFAULT_FIELD_WEIGHTS.map Prod.fst ∧
    (compare_records (fun s => s) phoneOnlyRecord phoneOnlyRecord none).1 = 95/100 ∧
    (compare_records (fun s => s) phoneOnlyRecord phoneOnlyRecord none).1 ≠ 1 := by
  refine ⟨by decide, by decide, ?_, ?_⟩ <;> with_unfolding_all decide

/-- C4 as amended: self-comparison yields an overall score of exactly `1.0`
for every record that has at least one non-empty field among the
default-weight fields, provided every such non-empty field still has a
non-empty value after its per-field normalization and the `phone` field is
empty (the phone branch answers `0.95` on identical values, and a field
whose normalized form is empty scores `0.0`). -/
theorem record_self_identity (mp : String → String) (a : CustomerRecord)
    (hphone : a.fields .phone = "")
    (hnorm : ∀ p ∈ DEFAULT_FIELD_WEIGHTS, a.fields p.1 ≠ "" →
      selfNorm p.1 (a.fields p.1) ≠ "")
    (hsome : ∃ p ∈ DEFAULT_FIELD_WEIGHTS, a.fields p.1 ≠ "") :
    (compare_records mp a a none).1 = 1 := by
  have hpos : ∀ p ∈ DEFAULT_FIELD_WEIGHTS, 0 < p.2 := by
    intro p hp
    fin_cases hp <;> norm_num
  have hone : ∀ p ∈ DEFAULT_FIELD_WEIGHTS, a.fields p.1 ≠ "" →
      compare_field mp p.1 (a.fields p.1) (a.fields p.1) = 1 := by
    intro p hp hne
    by_cases hf : p.1 = .phone
    · rw [hf] at hne
      exact absurd hphone hne
    · exact compare_field_self mp p.1 _ hne hf (hnorm p hp hne)
  obtain ⟨e1, e2, e3⟩ := scoreFold_self mp a DEFAULT_FIELD_WEIGHTS hpos hone
  have ht := e3 hsome
  unfold compare_records
  simp only
  rw [if_pos ht, e1, div_self (ne_of_gt ht), round4_one]

/-- C4 witness input: a record whose only populated field is `city`. -/
def cityOnlyRecord : CustomerRecord :=
  ⟨"r2", "s1", (fun f => match f with | .city => "boston" | _ => ""), none⟩

/-- Witness for the amended C4 at a concrete record. -/
theorem record_self_identity_witness :
    (compare_records (fun s => s) cityOnlyRecord cityOnlyRecord none).1 = 1 :=
  record_self_identity (fun s => s) cityOnlyRecord rfl (by with_unfolding_all decide)
    ⟨(.city, 5/100), by with_unfolding_all decide, by decide⟩


/-! ## Phone and website field rules -/

/-- C8: with both raw phone values non-empty, the field score is `0.0` when
either digit-normalized side is empty, exactly `0.95` (never `1.0`) when one
digit string is a suffix of the other, and otherwise the normalized
Levenshtein similarity of the two digit strings. -/
theorem phone_field_rule (mp : String → String) (va vb : String)
    (h1 : va ≠ "") (h2 : vb ≠ "") :
    (normalize_phone va = "" ∨ normalize_phone vb = "" →
      compare_field mp .phone va vb = 0) ∧
    (normalize_phone va ≠ "" → normalize_phone vb ≠ "" →
      ((normalize_phone vb).data.isSuffixOf (normalize_phone va).data ∨
       (normalize_phone va).data.isSuffixOf (normalize_phone vb).data) →
      compare_field mp .phone va vb = 95/100) ∧
    (normalize_phone va ≠ "" → normalize_phone vb ≠ "" →
      ¬((normalize_phone vb).data.isSuffixOf (normalize_phone va).data ∨
        (normalize_phone va).data.isSuffixOf (normalize_phone vb).data) →
      compare_field mp .phone va vb =
        1 - (levDist (normalize_phone va).data (normalize_phone vb).data : ℚ) /
          ((max (normalize_phone va).length (normalize_phone vb).length : Nat) : ℚ)) := by
  have hA : ¬(va = "" ∧ vb = "") := fun h => h1 h.1
  have hB : ¬(va = "" ∨ vb = "") := fun h => h.elim h1 h2
  refine ⟨?_, ?_, ?_⟩
  · intro h
    simp only [compare_field, if_neg hA, if_neg hB, if_pos h]
  · intro hna hnb hsuf
    have hC : ¬(normalize_phone va = "" ∨ normalize_phone vb = "") :=
      fun h => h.elim hna hnb
    simp only [compare_field, if_neg hA, if_neg hB, if_neg hC, if_pos hsuf]
  · intro hna hnb hnsuf
    have hC : ¬(normalize_phone va = "" ∨ normalize_phone vb = "") :=
      fun h => h.elim hna hnb
    simp only [compare_field, if_neg hA, if_neg hB, if_neg hC, if_neg hnsuf]
    have hne : normalize_phone va ≠ normalize_phone vb := by
      intro he
      refine hnsuf (Or.inl ?_)
      rw [he]
      simp [List.isSuffixOf]
    rw [compare_levenshtein, if_neg hC, if_neg hne]

/-- Witness for C8 on the literal scenario S2 of the spec. -/
theorem phone_field_rule_witness :
    compare_field (fun s => s) .phone "+1-555-0101" "555-0101" = 95/100 :=
  (phone_field_rule (fun s => s) "+1-555-0101" "555-0101" (by decide) (by decide)).2.1
    (by decide) (by decide) (by decide)

/-- The website normalization the way claim C9 words it: text-normalize,
strip the two scheme strings and `www.` as leading markers only, and strip a
single trailing slash. -/
def stripPre (p l : List Char) : List Char :=
  if p.isPrefixOf l then l.drop p.length else l

def stripOneSlash (l : List Char) : List Char :=
  match l.reverse with
  | '/' :: rest => rest.reverse
  | _ => l

def websiteNormClaim (s : String) : String :=
  ⟨stripOneSlash (stripPre "www.".data (stripPre "http://".data
    (stripPre "https://".data (normalize_text s).data)))⟩

/-- The website field score the way claim C9 words it: exact equality of the
claim-normalized strings, requiring both to be non-empty. -/
def websiteScoreClaim (va vb : String) : ℚ :=
  if websiteNormClaim va ≠ "" ∧ websiteNormClaim vb ≠ "" ∧
     websiteNormClaim va = websiteNormClaim vb
  then 1 else 0

/-- C9, counterexample.  On `example.com//` vs `example.com` the code
strips every trailing slash (`rstrip`), normalizes both sides to
`example.com` and scores `1.0`; the claim strips a single trailing slash,
leaves `example.com/` vs `example.com`, and prescribes `0.0`. -/
theorem website_rule_counterexample :
    compare_field (fun s => s) .website "example.com//" "example.com" = 1 ∧
    websiteScoreClaim "example.com//" "example.com" = 0 := by
  constructor <;> with_unfolding_all decide

/-- C9 as amended: each side is normalized by the text normalizer followed
by removal of every occurrence of `https://`, then of `http://`, then of
`www.` (anywhere in the string, not only as a leading marker), then removal
of every trailing slash; the score is exact equality of the results when
both are non-empty, and `0.0` otherwise. -/
theorem website_field_rule (mp : String → String) (va vb : String)
    (h1 : va ≠ "") (h2 : vb ≠ "") :
    (normalize_website va = "" ∨ normalize_website vb = "" →
      compare_field mp .website va vb = 0) ∧
    (normalize_website va ≠ "" → normalize_website vb ≠ "" →
      compare_field mp .website va vb =
        if normalize_website va = normalize_website vb then 1 else 0) := by
  have hA : ¬(va = "" ∧ vb = "") := fun h => h1 h.1
  have hB : ¬(va = "" ∨ vb = "") := fun h => h.elim h1 h2
  constructor
  · intro h
    have hc : ¬(normalize_website va ≠ "" ∧ normalize_website vb ≠ "") := by
      rcases h with h | h
      · exact fun hc => hc.1 h
      · exact fun hc => hc.2 h
    simp only [compare_field, if_neg hA, if_neg hB, if_neg hc]
  · intro hna hnb
    simp only [compare_field, if_neg hA, if_neg hB, if_pos (And.intro hna hnb)]
    rw [compare_exact, if_neg (fun h => h.elim hna hnb)]

/-- Witness for the amended C9 at a concrete pair of raw values. -/
theorem website_field_rule_witness :
    compare_field (fun s => s) .website "https://www.example.com/" "Example.com" =
      if normalize_website "https://www.example.com/" = normalize_website "Example.com"
      then 1 else 0 :=
  (website_field_rule (fun s => s) "https://www.example.com/" "Example.com"
    (by decide) (by decide)).2 (by with_unfolding_all decide) (by with_unfolding_all decide)


/-! ## Matching engine run (`find_matches`) -/

/-- All unordered pairs of a record list, each once, earlier element first
(`itertools.combinations(all_records, 2)`). -/
def allPairs : List CustomerRecord → List (CustomerRecord × CustomerRecord)
  | [] => []
  | a :: rest => rest.map (fun b => (a, b)) ++ allPairs rest

/-- The emission loop of `find_matches`: for each generated pair, skip it
when either orientation is in the dedup set; otherwise score it and, at or
above threshold, persist a PENDING candidate with method `rule_based_v1`
and add both orientations to the set before the next pair. -/
def runPairs (mp : String → String) (threshold : ℚ) (w : Option (List (Field × ℚ))) :
    List (CustomerRecord × CustomerRecord) → List MatchCandidate →
    List (String × String) → Nat → (List MatchCandidate × Nat)
  | [], ms, _, cid => (ms, cid)
  | (a, b) :: rest, ms, ex, cid =>
    if (a.id, b.id) ∈ ex then runPairs mp threshold w rest ms ex cid
    else
      let sc := compare_records mp a b w
      if threshold ≤ sc.1 then
        runPairs mp threshold w rest
          (ms ++ [⟨cid, a.id, b.id, sc.1, sc.2, "rule_based_v1", .pending, none⟩])
          ((a.id, b.id) :: (b.id, a.id) :: ex) (cid + 1)
      else runPairs mp threshold w rest ms ex cid

/-- `find_matches`: pair generation (cross-source product when scoped by a
non-empty `source_id`, all unordered pairs otherwise), dedup preload from
every persisted candidate in both orientations, emission loop, commit of
the new candidates.  An empty-string scope is falsy in Python and behaves
like no scope. -/
def find_matches (mp : String → String) (source_id : Option String) (threshold : ℚ)
    (field_weights : Option (List (Field × ℚ))) (db : Db) :
    List MatchCandidate × Db :=
  let pairs := match source_id with
    | some s =>
      if s = "" then allPairs db.records
      else
        (db.records.filter (fun r => decide (r.source_id = s))).flatMap
          (fun a => (db.records.filter (fun r => decide (r.source_id ≠ s))).map
            (fun b => (a, b)))
    | none => allPairs db.records
  let ex := db.candidates.flatMap
    (fun m => [(m.record_a_id, m.record_b_id), (m.record_b_id, m.record_a_id)])
  let r := runPairs mp threshold field_weights pairs [] ex db.nextCid
  (r.1, { db with candidates := db.candidates ++ r.1, nextCid := r.2 })

/-- Two candidates reference the same unordered pair of record ids. -/
def samePair (m1 m2 : MatchCandidate) : Prop :=
  (m1.record_a_id = m2.record_a_id ∧ m1.record_b_id = m2.record_b_id) ∨
  (m1.record_a_id = m2.record_b_id ∧ m1.record_b_id = m2.record_a_id)

instance (m1 m2 : MatchCandidate) : Decidable (samePair m1 m2) := by
  unfold samePair
  infer_instance

/-- No two candidates in the list reference the same unordered pair. -/
def NoDupPairs (cs : List MatchCandidate) : Prop :=
  cs.Pairwise (fun m1 m2 => ¬ samePair m1 m2)

/-- Both orientations of a candidate are in the dedup set. -/
def pairBlocked (ex : List (String × String)) (m : MatchCandidate) : Prop :=
  (m.record_a_id, m.record_b_id) ∈ ex ∧ (m.record_b_id, m.record_a_id) ∈ ex

theorem runPairs_nodup (mp : String → String) (t : ℚ) (w : Option (List (Field × ℚ)))
    (old : List MatchCandidate) :
    ∀ (P : List (CustomerRecord × CustomerRecord)) (ms : List MatchCandidate)
      (ex : List (String × String)) (cid : Nat),
      NoDupPairs (old ++ ms) → (∀ m ∈ old ++ ms, pairBlocked ex m) →
      NoDupPairs (old ++ (runPairs mp t w P ms ex cid).1) := by
  intro P
  induction P with
  | nil =>
    intro ms ex cid h1 _
    exact h1
  | cons p rest ih =>
    obtain ⟨a, b⟩ := p
    intro ms ex cid h1 h2
    by_cases hin : (a.id, b.id) ∈ ex
    · simp only [runPairs, if_pos hin]
      exact ih ms ex cid h1 h2
    · simp only [runPairs, if_neg hin]
      by_cases hsc : t ≤ (compare_records mp a b w).1
      · rw [if_pos hsc]
        apply ih
        · rw [show old ++ (ms ++ [⟨cid, a.id, b.id, (compare_records mp a b w).1,
            (compare_records mp a b w).2, "rule_based_v1", .pending, none⟩]) =
            (old ++ ms) ++ [⟨cid, a.id, b.id, (compare_records mp a b w).1,
            (compare_records mp a b w).2, "rule_based_v1", .pending, none⟩] by
              rw [List.append_assoc]]
          rw [NoDupPairs, List.pairwise_append]
          refine ⟨h1, List.pairwise_singleton _ _, ?_⟩
          intro m hm m2 hm2
          rw [List.mem_singleton] at hm2
          subst hm2
          intro hsp
          obtain ⟨hb1, hb2⟩ := h2 m hm
          rcases hsp with ⟨ha, hb⟩ | ⟨ha, hb⟩
          · simp only at ha hb
            rw [ha, hb] at hb1
            exact hin hb1
          · simp only at ha hb
            rw [ha, hb] at hb2
            exact hin hb2
        · intro m hm
          rw [← List.append_assoc] at hm
          rcases List.mem_append.mp hm with h | h
          · obtain ⟨hb1, hb2⟩ := h2 m h
            exact ⟨List.mem_cons_of_mem _ (List.mem_cons_of_mem _ hb1),
              List.mem_cons_of_mem _ (List.mem_cons_of_mem _ hb2)⟩
          · rw [List.mem_singleton] at h
            subst h
            exact ⟨List.mem_cons_self _ _,
              List.mem_cons_of_mem _ (List.mem_cons_self _ _)⟩
      · rw [if_neg hsc]
        exact ih ms ex cid h1 h2

theorem find_matches_nodup (mp : String → String) (sid : Option String) (t : ℚ)
    (w : Option (List (Field × ℚ))) (db : Db) (h : NoDupPairs db.candidates) :
    NoDupPairs ((find_matches mp sid t w db).2.candidates) := by
  unfold find_matches
  simp only
  apply runPairs_nodup
  · simpa using h
  · intro m hm
    rw [List.append_nil] at hm
    constructor
    · exact List.mem_flatMap.mpr ⟨m, hm, by simp⟩
    · exact List.mem_flatMap.mpr ⟨m, hm, by simp⟩

/-- One invocation of the matching run, as the HTTP layer drives it. -/
structure RunParams where
  sourceId : Option String
  threshold : ℚ
  weights : Option (List (Field × ℚ))

/-- C6: starting from any store without duplicate unordered candidate
pairs, after any sequence of matching runs (any scopes, thresholds and
weight maps), no two persisted MatchCandidates reference the same unordered
pair of record ids: the history preload blocks both orderings of every
persisted pair, and each emitted pair enters the in-memory set in both
orderings before later pairs are processed. -/
theorem no_duplicate_candidates (mp : String → String) (runs : List RunParams) (db : Db)
    (h : NoDupPairs db.candidates) :
    NoDupPairs ((runs.foldl
      (fun d p => (find_matches mp p.sourceId p.threshold p.weights d).2) db).candidates) := by
  induction runs generalizing db with
  | nil => exact h
  | cons p rest ih => exact ih _ (find_matches_nodup mp p.sourceId p.threshold p.weights db h)

/-- C6 witness store: two single-field records that will match on email. -/
def dbPairable : Db :=
  ⟨[⟨"r1", "s1", (fun f => match f with | .email => "a@x.com" | _ => ""), none⟩,
    ⟨"r2", "s2", (fun f => match f with | .email => "a@x.com" | _ => ""), none⟩],
   [], [], 0, 0⟩

/-- Witness for C6: one unscoped run at the default threshold on a concrete
two-record store. -/
theorem no_duplicate_candidates_witness :
    NoDupPairs ((([⟨none, 3/4, none⟩] : List RunParams).foldl
      (fun d p => (find_matches (fun s => s) p.sourceId p.threshold p.weights d).2)
      dbPairable).candidates) :=
  no_duplicate_candidates (fun s => s) [⟨none, 3/4, none⟩] dbPairable List.Pairwise.nil


/-! ## Re-emission after a below-threshold run -/

/-- A candidate references the unordered pair of record ids `{x, y}`. -/
def refersTo (m : MatchCandidate) (x y : String) : Prop :=
  (m.record_a_id = x ∧ m.record_b_id = y) ∨ (m.record_a_id = y ∧ m.record_b_id = x)

theorem allPairs_of_getElem :
    ∀ (l : List CustomerRecord) (i j : Nat) (x y : CustomerRecord),
      i < j → l[i]? = some x → l[j]? = some y → (x, y) ∈ allPairs l := by
  intro l
  induction l with
  | nil =>
    intro i j x y hij hx _
    simp at hx
  | cons c rest ih =>
    intro i j x y hij hx hy
    match i, j with
    | 0, j2 + 1 =>
      simp only [List.getElem?_cons_zero, Option.some.injEq] at hx
      simp only [List.getElem?_cons_succ] at hy
      subst hx
      refine List.mem_append.mpr (Or.inl (List.mem_map.mpr ⟨y, ?_, rfl⟩))
      obtain ⟨hlt, rfl⟩ := List.getElem?_eq_some.mp hy
      exact List.getElem_mem hlt
    | i2 + 1, j2 + 1 =>
      simp only [List.getElem?_cons_succ] at hx hy
      exact List.mem_append.mpr (Or.inr (ih i2 j2 x y (by omega) hx hy))

theorem allPairs_getElem :
    ∀ (l : List CustomerRecord) (x y : CustomerRecord), (x, y) ∈ allPairs l →
      ∃ i j : Nat, i < j ∧ l[i]? = some x ∧ l[j]? = some y := by
  intro l
  induction l with
  | nil =>
    intro x y h
    simp [allPairs] at h
  | cons c rest ih =>
    intro x y h
    rcases List.mem_append.mp h with h | h
    · obtain ⟨b, hb, heq⟩ := List.mem_map.mp h
      cases heq
      obtain ⟨j2, hj2, rfl⟩ := List.getElem_of_mem hb
      exact ⟨0, j2 + 1, by omega, by simp,
        by simp [List.getElem?_eq_some.mpr ⟨hj2, rfl⟩]⟩
    · obtain ⟨i, j, hij, hx, hy⟩ := ih x y h
      exact ⟨i + 1, j + 1, by omega, by simpa using hx, by simpa using hy⟩

theorem getElem?_id_inj (l : List CustomerRecord)
    (hnd : (l.map (fun r => r.id)).Nodup) (i j : Nat) (x y : CustomerRecord)
    (hx : l[i]? = some x) (hy : l[j]? = some y) (hid : x.id = y.id) : i = j := by
  have hi : i < l.length := by
    by_contra hc
    rw [List.getElem?_eq_none (by omega)] at hx
    cases hx
  have hxi : (l.map (fun r => r.id))[i]? = some x.id := by
    rw [List.getElem?_map, hx]
    rfl
  have hyj : (l.map (fun r => r.id))[j]? = some y.id := by
    rw [List.getElem?_map, hy]
    rfl
  exact List.getElem?_inj (by simpa using hi) hnd (by rw [hxi, hyj, hid])

/-- On a store with pairwise-distinct record ids, a pair of the generator
whose ids coincide with those of the pair at positions `i < j` is that very
pair, and no generator pair carries the ids in swapped order. -/
theorem allPairs_resolve (l : List CustomerRecord)
    (hnd : (l.map (fun r => r.id)).Nodup) (i j : Nat) (a b : CustomerRecord)
    (hij : i < j) (hi : l[i]? = some a) (hj : l[j]? = some b)
    (x y : CustomerRecord) (hxy : (x, y) ∈ allPairs l) :
    (x.id = a.id ∧ y.id = b.id → x = a ∧ y = b) ∧ ¬(x.id = b.id ∧ y.id = a.id) := by
  obtain ⟨i2, j2, hij2, hx, hy⟩ := allPairs_getElem l x y hxy
  constructor
  · rintro ⟨ha, hb⟩
    have e1 : i2 = i := getElem?_id_inj l hnd i2 i x a hx hi ha
    have e2 : j2 = j := getElem?_id_inj l hnd j2 j y b hy hj hb
    rw [e1, hi] at hx
    rw [e2, hj] at hy
    exact ⟨(Option.some.injEq _ _).mp hx.symm, (Option.some.injEq _ _).mp hy.symm⟩
  · rintro ⟨ha, hb⟩
    have e1 : i2 = j := getElem?_id_inj l hnd i2 j x b hx hj ha
    have e2 : j2 = i := getElem?_id_inj l hnd j2 i y a hy hi hb
    omega

theorem runPairs_sound (mp : String → String) (t : ℚ) (w : Option (List (Field × ℚ))) :
    ∀ (P : List (CustomerRecord × CustomerRecord)) ms ex cid (m : MatchCandidate),
      m ∈ (runPairs mp t w P ms ex cid).1 →
      m ∈ ms ∨ ∃ x y, (x, y) ∈ P ∧ m.record_a_id = x.id ∧ m.record_b_id = y.id ∧
        t ≤ (compare_records mp x y w).1 := by
  intro P
  induction P with
  | nil =>
    intro ms ex cid m hm
    exact Or.inl hm
  | cons p rest ih =>
    obtain ⟨a, b⟩ := p
    intro ms ex cid m hm
    by_cases hin : (a.id, b.id) ∈ ex
    · rw [runPairs, if_pos hin] at hm
      rcases ih ms ex cid m hm with h | ⟨x, y, hxy, h⟩
      · exact Or.inl h
      · exact Or.inr ⟨x, y, List.mem_cons_of_mem _ hxy, h⟩
    · rw [runPairs, if_neg hin] at hm
      by_cases hsc : t ≤ (compare_records mp a b w).1
      · rw [if_pos hsc] at hm
        rcases ih _ _ _ m hm with h | ⟨x, y, hxy, h⟩
        · rcases List.mem_append.mp h with h | h
          · exact Or.inl h
          · rw [List.mem_singleton] at h
            subst h
            exact Or.inr ⟨a, b, List.mem_cons_self _ _, rfl, rfl, hsc⟩
        · exact Or.inr ⟨x, y, List.mem_cons_of_mem _ hxy, h⟩
      · rw [if_neg hsc] at hm
        rcases ih ms ex cid m hm with h | ⟨x, y, hxy, h⟩
        · exact Or.inl h
        · exact Or.inr ⟨x, y, List.mem_cons_of_mem _ hxy, h⟩

theorem runPairs_mono (mp : String → String) (t : ℚ) (w : Option (List (Field × ℚ))) :
    ∀ (P : List (CustomerRecord × CustomerRecord)) ms ex cid (m : MatchCandidate),
      m ∈ ms → m ∈ (runPairs mp t w P ms ex cid).1 := by
  intro P
  induction P with
  | nil =>
    intro ms ex cid m hm
    exact hm
  | cons p rest ih =>
    obtain ⟨a, b⟩ := p
    intro ms ex cid m hm
    by_cases hin : (a.id, b.id) ∈ ex
    · rw [runPairs, if_pos hin]
      exact ih ms ex cid m hm
    · rw [runPairs, if_neg hin]
      by_cases hsc : t ≤ (compare_records mp a b w).1
      · rw [if_pos hsc]
        exact ih _ _ _ m (List.mem_append.mpr (Or.inl hm))
      · rw [if_neg hsc]
        exact ih ms ex cid m hm

theorem runPairs_complete (mp : String → String) (t : ℚ)
    (w : Option (List (Field × ℚ))) (a b : CustomerRecord) :
    ∀ (P : List (CustomerRecord × CustomerRecord)) ms ex cid,
      (a, b) ∈ P →
      t ≤ (compare_records mp a b w).1 →
      (a.id, b.id) ∉ ex →
      (∀ x y, (x, y) ∈ P → (x, y) ≠ (a, b) →
        (x.id, y.id) ≠ (a.id, b.id) ∧ (y.id, x.id) ≠ (a.id, b.id)) →
      ∃ m ∈ (runPairs mp t w P ms ex cid).1,
        m.record_a_id = a.id ∧ m.record_b_id = b.id := by
  intro P
  induction P with
  | nil =>
    intro ms ex cid h
    cases h
  | cons p rest ih =>
    obtain ⟨x, y⟩ := p
    intro ms ex cid hmem hsc hnotin hother
    by_cases hpa : (x, y) = (a, b)
    · obtain ⟨rfl, rfl⟩ := Prod.mk.inj hpa
      rw [runPairs, if_neg hnotin, if_pos hsc]
      exact ⟨⟨cid, x.id, y.id, (compare_records mp x y w).1, (compare_records mp x y w).2,
        "rule_based_v1", .pending, none⟩,
        runPairs_mono mp t w rest _ _ _ _
          (List.mem_append.mpr (Or.inr (List.mem_singleton.mpr rfl))), rfl, rfl⟩
    · have hmem2 : (a, b) ∈ rest := by
        rcases List.mem_cons.mp hmem with h | h
        · exact absurd h.symm hpa
        · exact h
      have hrest : ∀ u v, (u, v) ∈ rest → (u, v) ≠ (a, b) →
          (u.id, v.id) ≠ (a.id, b.id) ∧ (v.id, u.id) ≠ (a.id, b.id) :=
        fun u v hu => hother u v (List.mem_cons_of_mem _ hu)
      obtain ⟨hne1, hne2⟩ := hother x y (List.mem_cons_self _ _) hpa
      by_cases hin : (x.id, y.id) ∈ ex
      · rw [runPairs, if_pos hin]
        exact ih ms ex cid hmem2 hsc hnotin hrest
      · rw [runPairs, if_neg hin]
        by_cases hs2 : t ≤ (compare_records mp x y w).1
        · rw [if_pos hs2]
          refine ih _ _ _ hmem2 hsc ?_ hrest
          intro hc
          rcases List.mem_cons.mp hc with h | hc
          · exact hne1 (by rw [h])
          rcases List.mem_cons.mp hc with h | hc
          · exact hne2 (by rw [h])
          · exact hnotin hc
        · rw [if_neg hs2]
          exact ih ms ex cid hmem2 hsc hnotin hrest

/-- C10: a compared pair whose overall score falls below the threshold of
a run is not persisted by that run and stays absent from the dedup
history, so a later unscoped run whose threshold the pair meets (for
example with a lower threshold or other weights) emits it. -/
theorem below_threshold_retry (mp : String → String) (db : Db)
    (a b : CustomerRecord) (i j : Nat) (t1 t2 : ℚ)
    (w1 w2 : Option (List (Field × ℚ)))
    (hnd : (db.records.map (fun r => r.id)).Nodup)
    (hij : i < j) (hi : db.records[i]? = some a) (hj : db.records[j]? = some b)
    (hnone : ∀ m ∈ db.candidates, ¬ refersTo m a.id b.id)
    (hlow : (compare_records mp a b w1).1 < t1) :
    (∀ m ∈ (find_matches mp none t1 w1 db).2.candidates, ¬ refersTo m a.id b.id) ∧
    (t2 ≤ (compare_records mp a b w2).1 →
      ∃ m ∈ (find_matches mp none t2 w2 (find_matches mp none t1 w1 db).2).1,
        m.record_a_id = a.id ∧ m.record_b_id = b.id) := by
  have hres : ∀ x y, (x, y) ∈ allPairs db.records →
      (x.id = a.id ∧ y.id = b.id → x = a ∧ y = b) ∧ ¬(x.id = b.id ∧ y.id = a.id) :=
    fun x y hxy => allPairs_resolve db.records hnd i j a b hij hi hj x y hxy
  have part1 : ∀ m ∈ (find_matches mp none t1 w1 db).2.candidates,
      ¬ refersTo m a.id b.id := by
    intro m hm href
    rcases List.mem_append.mp hm with hold | hnew
    · exact hnone m hold href
    · rcases runPairs_sound mp t1 w1 _ _ _ _ m hnew with h | ⟨x, y, hxy, hxa, hyb, hs⟩
      · cases h
      · rcases href with ⟨e1, e2⟩ | ⟨e1, e2⟩
        · obtain ⟨rfl, rfl⟩ := (hres x y hxy).1 ⟨by rw [← hxa, e1], by rw [← hyb, e2]⟩
          exact absurd hs (by exact not_le.mpr hlow)
        · exact (hres x y hxy).2 ⟨by rw [← hxa, e1], by rw [← hyb, e2]⟩
  refine ⟨part1, ?_⟩
  intro hs2
  have hnotin : (a.id, b.id) ∉
      ((find_matches mp none t1 w1 db).2.candidates.flatMap
        (fun m => [(m.record_a_id, m.record_b_id), (m.record_b_id, m.record_a_id)])) := by
    intro hc
    obtain ⟨c, hcmem, hcp⟩ := List.mem_flatMap.mp hc
    rcases List.mem_cons.mp hcp with h | hcp
    · obtain ⟨e1, e2⟩ := Prod.mk.inj h.symm
      exact part1 c hcmem (Or.inl ⟨e1, e2⟩)
    rcases List.mem_cons.mp hcp with h | hcp
    · obtain ⟨e1, e2⟩ := Prod.mk.inj h.symm
      exact part1 c hcmem (Or.inr ⟨e2, e1⟩)
    · cases hcp
  have hother : ∀ x y, (x, y) ∈ allPairs db.records → (x, y) ≠ (a, b) →
      (x.id, y.id) ≠ (a.id, b.id) ∧ (y.id, x.id) ≠ (a.id, b.id) := by
    intro x y hxy hne
    constructor
    · intro hc
      obtain ⟨e1, e2⟩ := Prod.mk.inj hc
      obtain ⟨rfl, rfl⟩ := (hres x y hxy).1 ⟨e1, e2⟩
      exact hne rfl
    · intro hc
      obtain ⟨e1, e2⟩ := Prod.mk.inj hc
      exact (hres x y hxy).2 ⟨e2, e1⟩
  have hpairmem : (a, b) ∈ allPairs db.records :=
    allPairs_of_getElem db.records i j a b hij hi hj
  exact runPairs_complete mp t2 w2 a b _ _ _ _ hpairmem hs2 hnotin hother

/-- Witness store for C10: an email match plus a fully different city keeps
the overall score at `0.8`, below a `0.9` threshold but above `0.75`. -/
def dbRetry : Db :=
  ⟨[⟨"r1", "s1", (fun f => match f with | .email => "a@x.com" | .city => "boston" | _ => ""), none⟩,
    ⟨"r2", "s2", (fun f => match f with | .email => "a@x.com" | .city => "miami" | _ => ""), none⟩],
   [], [], 0, 0⟩

/-- Witness for C10 at a concrete store: a 0.9-threshold run skips the
pair, a later 0.75-threshold run emits it. -/
theorem below_threshold_retry_witness :
    (∀ m ∈ (find_matches (fun s => s) none (9/10) none dbRetry).2.candidates,
      ¬ refersTo m "r1" "r2") ∧
    (∃ m ∈ (find_matches (fun s => s) none (3/4) none
        (find_matches (fun s => s) none (9/10) none dbRetry).2).1,
      m.record_a_id = "r1" ∧ m.record_b_id = "r2") := by
  have h := below_threshold_retry (fun s => s) dbRetry
    ⟨"r1", "s1", (fun f => match f with | .email => "a@x.com" | .city => "boston" | _ => ""), none⟩
    ⟨"r2", "s2", (fun f => match f with | .email => "a@x.com" | .city => "miami" | _ => ""), none⟩
    0 1 (9/10) (3/4) none none (by decide) (by omega) rfl rfl
    (by intro m hm; cases hm) (by with_unfolding_all decide)
  exact ⟨h.1, h.2 (by with_unfolding_all decide)⟩


/-! ## Golden record service (`golden_record_service.py`, `api/matching.py`) -/

/-- `auto_select_best_values`: prefer the present value, then the longer
value with ties to `record_a`; `none` when both sides are empty. -/
def auto_select_best_values (record_a record_b : CustomerRecord) :
    Field → Option String := fun f =>
  let val_a := record_a.fields f
  let val_b := record_b.fields f
  if val_a ≠ "" ∧ val_b = "" then some val_a
  else if val_b ≠ "" ∧ val_a = "" then some val_b
  else if val_a ≠ "" ∧ val_b ≠ "" then
    some (if val_b.length ≤ val_a.length then val_a else val_b)
  else none

/-- The merge plan: a non-empty operator map replaces the auto-plan
wholesale (`if surviving_values:` is false for `None` and for an empty
dict), otherwise `auto_select_best_values` runs. -/
def mergePlan (surviving : Option (List (Field × String)))
    (record_a record_b : CustomerRecord) : Field → Option String :=
  match surviving with
  | some (p :: ps) => fun f => List.lookup f (p :: ps)
  | _ => auto_select_best_values record_a record_b

/-- Python truthiness of a field value drawn from a plan dict. -/
def truthy : Option String → Bool
  | some v => v != ""
  | none => false

/-- The update path of the merge: overwrite each Standard Field whose
planned value is truthy and bump `source_count`. -/
def applyPlan (values : Field → Option String) (g : GoldenRecord) : GoldenRecord :=
  { g with
    fields := fun f => if truthy (values f) then (values f).getD "" else g.fields f,
    source_count := g.source_count + 1 }

/-- The create path of the merge: a fresh golden populated with
`values.get(f)` and `source_count = 2`. -/
def newGolden (gid : Nat) (values : Field → Option String) : GoldenRecord :=
  { id := gid, fields := fun f => (values f).getD "", source_count := 2 }

/-- The candidate-table update of the merge commit: the matched candidate
becomes MERGED. -/
def candMerged (cs : List MatchCandidate) (match_id : Nat) : List MatchCandidate :=
  cs.map (fun c => if c.id = match_id then { c with status := .merged } else c)

/-- The merge commit sets `golden_record_id` on the two fetched rows; with
unique ids that is this by-id update (the single-record promotion passes
the same id twice). -/
def relinkRecord (aid bid : String) (gid : Nat) (r : CustomerRecord) : CustomerRecord :=
  if r.id = aid ∨ r.id = bid then { r with golden_record_id := some gid } else r

inductive SvcError where
  | notFound (msg : String)
deriving DecidableEq

/-- `merge_records`: resolve candidate and records, build the plan, find an
existing golden via `record_a` first and only otherwise via `record_b`,
update it (overwrite truthy planned fields, bump `source_count`) or create
a fresh golden with `source_count = 2`, relink both records to it, mark the
candidate MERGED, commit.  The candidate status is never inspected, and
nothing compares the two golden links against each other. -/
def merge_records (db : Db) (match_id : Nat)
    (surviving_values : Option (List (Field × String))) :
    Except SvcError (GoldenRecord × Db) :=
  match db.candidates.find? (fun m => m.id == match_id) with
  | none => .error (.notFound "match candidate not found")
  | some m =>
    match db.records.find? (fun r => r.id == m.record_a_id),
          db.records.find? (fun r => r.id == m.record_b_id) with
    | some record_a, some record_b =>
      let values := mergePlan surviving_values record_a record_b
      let existing : Option GoldenRecord :=
        match record_a.golden_record_id with
        | some gid => db.goldens.find? (fun g => g.id == gid)
        | none =>
          match record_b.golden_record_id with
          | some gid => db.goldens.find? (fun g => g.id == gid)
          | none => none
      match existing with
      | some g =>
        .ok (applyPlan values g,
          { db with
            goldens := db.goldens.map (fun g2 =>
              if g2.id = g.id then applyPlan values g else g2),
            records := db.records.map
              (relinkRecord m.record_a_id m.record_b_id (applyPlan values g).id),
            candidates := candMerged db.candidates match_id })
      | none =>
        .ok (newGolden db.nextGid values,
          { db with
            goldens := db.goldens ++ [newGolden db.nextGid values],
            nextGid := db.nextGid + 1,
            records := db.records.map
              (relinkRecord m.record_a_id m.record_b_id (newGolden db.nextGid values).id),
            candidates := candMerged db.candidates match_id })
    | _, _ => .error (.notFound "matched records not found")

inductive ReviewError where
  | notFound
  | badStatus
deriving DecidableEq

/-- `review_match` endpoint: 404 on an unknown id, 400 on a status string
other than `approved`/`rejected`, otherwise overwrite status and notes;
the current status of the candidate is never inspected. -/
def review_match (db : Db) (match_id : Nat) (status : String)
    (notes : Option String) : Except ReviewError Db :=
  match db.candidates.find? (fun m => m.id == match_id) with
  | none => .error .notFound
  | some _ =>
    if status = "approved" ∨ status = "rejected" then
      .ok { db with candidates := db.candidates.map (fun c =>
        if c.id = match_id then
          { c with status := if status = "approved" then .approved else .rejected,
                   notes := notes }
        else c) }
    else .error .badStatus

/-- `create_golden_from_single`: copy every Standard Field verbatim into a
fresh golden with `source_count = 1` and link the record to it. -/
def create_golden_from_single (db : Db) (record_id : String) :
    Except SvcError (GoldenRecord × Db) :=
  match db.records.find? (fun r => r.id == record_id) with
  | none => .error (.notFound "record not found")
  | some record =>
    let golden : GoldenRecord :=
      { id := db.nextGid, fields := record.fields, source_count := 1 }
    .ok (golden,
      { db with
        goldens := db.goldens ++ [golden],
        nextGid := db.nextGid + 1,
        records := db.records.map (relinkRecord record_id record_id golden.id) })

/-- Whether some PENDING candidate references the record on either side. -/
def hasPendingMatch (cs : List MatchCandidate) (rid : String) : Bool :=
  cs.any (fun m => (m.record_a_id == rid || m.record_b_id == rid) &&
    m.status == MatchStatus.pending)

/-- The promotion loop over the ids of the initially unmatched records. -/
def promoteLoop : List String → Db → Nat → Except SvcError (Nat × Db)
  | [], db, count => .ok (count, db)
  | rid :: rest, db, count =>
    if hasPendingMatch db.candidates rid then promoteLoop rest db count
    else
      match create_golden_from_single db rid with
      | .ok (_, db2) => promoteLoop rest db2 (count + 1)
      | .error e => .error e

/-- `promote_unmatched_to_golden`: promote every record with no golden link
and no PENDING candidate; returns the number promoted. -/
def promote_unmatched_to_golden (db : Db) : Except SvcError (Nat × Db) :=
  promoteLoop ((db.records.filter (fun r => r.golden_record_id.isNone)).map
    (fun r => r.id)) db 0

/-! ## Merge behavior on linked records (C1), terminal states (C2),
operator-supplied surviving values (C5) -/

/-- C1 conflict store: record `a` is linked to golden 0, record `b` to
golden 1, and the candidate over them is PENDING. -/
def dbConflict : Db :=
  ⟨[⟨"a", "s1", (fun _ => ""), some 0⟩, ⟨"b", "s1", (fun _ => ""), some 1⟩],
   [⟨0, "a", "b", 1, [], "rule_based_v1", .pending, none⟩],
   [⟨0, (fun _ => ""), 1⟩, ⟨1, (fun _ => ""), 1⟩], 1, 2⟩

/-- C1, counterexample.  With `a` linked to golden 0 and `b` linked to
golden 1, the merge does not fail: it succeeds, updates golden 0, relinks
both records to golden 0, marks the candidate MERGED, and leaves golden 1
in place with its now-stale `source_count`.  No ConflictingGoldens error
exists in the code. -/
theorem conflicting_goldens_counterexample :
    ((merge_records dbConflict 0 none).toOption.map
      (fun p => (p.1.id, p.1.source_count)) = some (0, 2)) ∧
    ((merge_records dbConflict 0 none).toOption.map
      (fun p => p.2.records.map (fun r => r.golden_record_id)) =
        some [some 0, some 0]) ∧
    ((merge_records dbConflict 0 none).toOption.map
      (fun p => p.2.candidates.map (fun c => c.status)) =
        some [.merged]) ∧
    ((merge_records dbConflict 0 none).toOption.map
      (fun p => p.2.goldens.map (fun g => (g.id, g.source_count))) =
        some [(0, 2), (1, 1)]) := by
  refine ⟨?_, ?_, ?_, ?_⟩ <;> with_unfolding_all decide

/-- C1 as amended: when the candidate and both records resolve and
`record_a` is linked to an existing golden `g1`, the merge succeeds no
matter what `record_b` is linked to: it returns `g1` with the truthy
planned fields overwritten and `source_count` incremented, relinks both
records to `g1`, marks the candidate MERGED, creates no golden, and every
other golden — including a different golden of `record_b` — survives
unmodified. -/
theorem merge_uses_record_a_golden (db : Db) (match_id : Nat)
    (surv : Option (List (Field × String)))
    (m : MatchCandidate) (a b : CustomerRecord) (gid : Nat) (g1 : GoldenRecord)
    (hm : db.candidates.find? (fun c => c.id == match_id) = some m)
    (ha : db.records.find? (fun r => r.id == m.record_a_id) = some a)
    (hb : db.records.find? (fun r => r.id == m.record_b_id) = some b)
    (hga : a.golden_record_id = some gid)
    (hg : db.goldens.find? (fun g => g.id == gid) = some g1) :
    merge_records db match_id surv = .ok (applyPlan (mergePlan surv a b) g1,
      { db with
        goldens := db.goldens.map (fun g2 =>
          if g2.id = g1.id then applyPlan (mergePlan surv a b) g1 else g2),
        records := db.records.map
          (relinkRecord m.record_a_id m.record_b_id (applyPlan (mergePlan surv a b) g1).id),
        candidates := candMerged db.candidates match_id }) ∧
    (applyPlan (mergePlan surv a b) g1).id = g1.id ∧
    (applyPlan (mergePlan surv a b) g1).source_count = g1.source_count + 1 ∧
    (∀ g2 ∈ db.goldens, g2.id ≠ g1.id →
      g2 ∈ db.goldens.map (fun g2 =>
        if g2.id = g1.id then applyPlan (mergePlan surv a b) g1 else g2)) := by
  refine ⟨by simp only [merge_records, hm, ha, hb, hga, hg], rfl, rfl, ?_⟩
  intro g2 hg2 hne
  exact List.mem_map.mpr ⟨g2, hg2, by simp [hne]⟩

/-- Witness for the amended C1 at the concrete conflict store. -/
theorem merge_uses_record_a_golden_witness :
    merge_records dbConflict 0 none = .ok
      (applyPlan (mergePlan none ⟨"a", "s1", (fun _ => ""), some 0⟩
          ⟨"b", "s1", (fun _ => ""), some 1⟩) ⟨0, (fun _ => ""), 1⟩,
        { dbConflict with
          goldens := dbConflict.goldens.map (fun g2 =>
            if g2.id = (⟨0, (fun _ => ""), 1⟩ : GoldenRecord).id then
              applyPlan (mergePlan none ⟨"a", "s1", (fun _ => ""), some 0⟩
                ⟨"b", "s1", (fun _ => ""), some 1⟩) ⟨0, (fun _ => ""), 1⟩
            else g2),
          records := dbConflict.records.map (relinkRecord "a" "b"
            (applyPlan (mergePlan none ⟨"a", "s1", (fun _ => ""), some 0⟩
              ⟨"b", "s1", (fun _ => ""), some 1⟩) ⟨0, (fun _ => ""), 1⟩).id),
          candidates := candMerged dbConflict.candidates 0 }) :=
  (merge_uses_record_a_golden dbConflict 0 none
    ⟨0, "a", "b", 1, [], "rule_based_v1", .pending, none⟩
    ⟨"a", "s1", (fun _ => ""), some 0⟩ ⟨"b", "s1", (fun _ => ""), some 1⟩
    0 ⟨0, (fun _ => ""), 1⟩ rfl rfl rfl rfl rfl).1

/-- C2 store: the only candidate is already MERGED. -/
def dbTerminal : Db :=
  ⟨[⟨"a", "s1", (fun _ => ""), none⟩, ⟨"b", "s1", (fun _ => ""), none⟩],
   [⟨0, "a", "b", 1, [], "rule_based_v1", .merged, none⟩], [], 1, 0⟩

/-- C2, counterexample: reviewing a MERGED candidate succeeds and rewrites
its status to APPROVED, and merging it succeeds as well; there is no
InvalidStateTransition check anywhere. -/
theorem terminal_states_counterexample :
    ((review_match dbTerminal 0 "approved" none).toOption.map
      (fun d => d.candidates.map (fun c => c.status)) = some [.approved]) ∧
    (merge_records dbTerminal 0 none).isOk = true := by
  constructor <;> with_unfolding_all decide

/-- C2 as amended: neither review nor merge inspects the candidate status.
A review of any candidate (whatever its current status, including REJECTED
and MERGED) with a valid requested status succeeds and overwrites status
and notes; a merge of a REJECTED or MERGED candidate whose records resolve
succeeds and sets the status to MERGED again. -/
theorem terminal_states_not_enforced (db : Db) (match_id : Nat) (m : MatchCandidate)
    (notes : Option String)
    (hm : db.candidates.find? (fun c => c.id == match_id) = some m) :
    (∀ st : String, st = "approved" ∨ st = "rejected" →
      review_match db match_id st notes =
        .ok { db with
              candidates := db.candidates.map (fun c => if c.id = match_id then
                { c with
                  status := if st = "approved" then .approved else .rejected,
                  notes := notes } else c) }) ∧
    (∀ (a b : CustomerRecord) (surv : Option (List (Field × String))),
      db.records.find? (fun r => r.id == m.record_a_id) = some a →
      db.records.find? (fun r => r.id == m.record_b_id) = some b →
      m.status = .rejected ∨ m.status = .merged →
      (merge_records db match_id surv).isOk = true ∧
      (merge_records db match_id surv).toOption.map (fun p => p.2.candidates) =
        some (candMerged db.candidates match_id)) := by
  constructor
  · intro st hst
    simp only [review_match, hm, if_pos hst]
  · intro a b surv ha hb _
    cases hga : a.golden_record_id with
    | some gid =>
      cases hfind : db.goldens.find? (fun g => g.id == gid) with
      | some g =>
        simp only [merge_records, hm, ha, hb, hga, hfind]
        exact ⟨rfl, rfl⟩
      | none =>
        simp only [merge_records, hm, ha, hb, hga, hfind]
        exact ⟨rfl, rfl⟩
    | none =>
      cases hgb : b.golden_record_id with
      | some gid =>
        cases hfind : db.goldens.find? (fun g => g.id == gid) with
        | some g =>
          simp only [merge_records, hm, ha, hb, hga, hgb, hfind]
          exact ⟨rfl, rfl⟩
        | none =>
          simp only [merge_records, hm, ha, hb, hga, hgb, hfind]
          exact ⟨rfl, rfl⟩
      | none =>
        simp only [merge_records, hm, ha, hb, hga, hgb]
        exact ⟨rfl, rfl⟩

/-- Witness for the amended C2 at the concrete MERGED-candidate store. -/
theorem terminal_states_not_enforced_witness :
    (review_match dbTerminal 0 "approved" none =
      .ok { dbTerminal with
            candidates := dbTerminal.candidates.map (fun c => if c.id = 0 then
              { c with
                status := if "approved" = "approved" then .approved else .rejected,
                notes := none } else c) }) ∧
    ((merge_records dbTerminal 0 none).isOk = true ∧
      (merge_records dbTerminal 0 none).toOption.map (fun p => p.2.candidates) =
        some (candMerged dbTerminal.candidates 0)) := by
  have h := terminal_states_not_enforced dbTerminal 0
    ⟨0, "a", "b", 1, [], "rule_based_v1", .merged, none⟩ none rfl
  exact ⟨h.1 "approved" (Or.inl rfl),
    h.2 ⟨"a", "s1", (fun _ => ""), none⟩ ⟨"b", "s1", (fun _ => ""), none⟩ none
      rfl rfl (Or.inr rfl)⟩

/-- C5 store: `record_a` carries a company name, `record_b` nothing; no
golden links yet. -/
def dbSurvive : Db :=
  ⟨[⟨"a", "s1", (fun f => match f with | .company_name => "Acme" | _ => ""), none⟩,
    ⟨"b", "s1", (fun _ => ""), none⟩],
   [⟨0, "a", "b", 1, [], "rule_based_v1", .pending, none⟩], [], 1, 0⟩

/-- C5, counterexample: the operator supplies only `email`; the auto-plan
would choose `Acme` for company_name, but the merged golden has an empty
company_name — fields outside the operator map do not fall back to the
auto-plan. -/
theorem surviving_values_counterexample :
    (auto_select_best_values
      ⟨"a", "s1", (fun f => match f with | .company_name => "Acme" | _ => ""), none⟩
      ⟨"b", "s1", (fun _ => ""), none⟩ .company_name = some "Acme") ∧
    ((merge_records dbSurvive 0 (some [(.email, "x@y.com")])).toOption.map
      (fun p => (p.1.fields .company_name, p.1.fields .email)) =
        some ("", "x@y.com")) := by
  constructor <;> with_unfolding_all decide

/-- C5 as amended: a non-empty operator map replaces the auto-plan
wholesale.  On the create path the new golden carries exactly the operator
values, a field absent from the map becoming empty rather than auto-filled;
on the update path a field absent from the map keeps the existing golden
value; the auto-plan is consulted only when the operator map is absent or
empty. -/
theorem surviving_values_override (db : Db) (match_id : Nat) (m : MatchCandidate)
    (a b : CustomerRecord)
    (hm : db.candidates.find? (fun c => c.id == match_id) = some m)
    (ha : db.records.find? (fun r => r.id == m.record_a_id) = some a)
    (hb : db.records.find? (fun r => r.id == m.record_b_id) = some b) :
    (∀ (p : Field × String) (ps : List (Field × String)),
      a.golden_record_id = none → b.golden_record_id = none →
      (merge_records db match_id (some (p :: ps))).toOption.map (fun q => q.1.fields) =
        some (fun f => (List.lookup f (p :: ps)).getD "")) ∧
    (∀ (p : Field × String) (ps : List (Field × String)) (gid : Nat) (g1 : GoldenRecord)
      (f : Field),
      a.golden_record_id = some gid →
      db.goldens.find? (fun g => g.id == gid) = some g1 →
      List.lookup f (p :: ps) = none →
      (merge_records db match_id (some (p :: ps))).toOption.map (fun q => q.1.fields f) =
        some (g1.fields f)) ∧
    (∀ surv : Option (List (Field × String)), surv = none ∨ surv = some [] →
      a.golden_record_id = none → b.golden_record_id = none →
      (merge_records db match_id surv).toOption.map (fun q => q.1.fields) =
        some (fun f => (auto_select_best_values a b f).getD "")) := by
  refine ⟨?_, ?_, ?_⟩
  · intro p ps hga hgb
    simp only [merge_records, hm, ha, hb, hga, hgb, Except.toOption, Option.map,
      newGolden, mergePlan]
  · intro p ps gid g1 f hga hfind hf
    simp only [merge_records, hm, ha, hb, hga, hfind, Except.toOption, Option.map,
      applyPlan, mergePlan, hf, truthy]
    simp
  · intro surv hsurv hga hgb
    rcases hsurv with rfl | rfl
    · simp only [merge_records, hm, ha, hb, hga, hgb, Except.toOption, Option.map,
        newGolden, mergePlan]
    · simp only [merge_records, hm, ha, hb, hga, hgb, Except.toOption, Option.map,
        newGolden, mergePlan]

/-- Witness for the amended C5 at the concrete store. -/
theorem surviving_values_override_witness :
    (merge_records dbSurvive 0 (some [(.email, "x@y.com")])).toOption.map
      (fun q => q.1.fields) =
      some (fun f => (List.lookup f [(Field.email, "x@y.com")]).getD "") :=
  (surviving_values_override dbSurvive 0
    ⟨0, "a", "b", 1, [], "rule_based_v1", .pending, none⟩
    ⟨"a", "s1", (fun f => match f with | .company_name => "Acme" | _ => ""), none⟩
    ⟨"b", "s1", (fun _ => ""), none⟩ rfl rfl rfl).1
    (.email, "x@y.com") [] rfl rfl


/-! ## Counting machinery for the golden-count invariant -/

/-- The number of CustomerRecords linked to golden id `gid`. -/
def linkedCount (records : List CustomerRecord) (gid : Nat) : Nat :=
  (records.filter (fun r => r.golden_record_id == some gid)).length

/-- The golden-count part of the C3 invariant: every golden has
`source_count ≥ 1` equal to the number of records linked to it.  (The
one-golden-per-record part of C3 holds by the shape of the data model:
`golden_record_id` is a single optional value.) -/
def GoldenCountInvariant (db : Db) : Prop :=
  ∀ g ∈ db.goldens, 1 ≤ g.source_count ∧ g.source_count = linkedCount db.records g.id

instance (db : Db) : Decidable (GoldenCountInvariant db) := by
  unfold GoldenCountInvariant
  infer_instance

/-- Store well-formedness: unique record ids, unique golden ids, golden ids
below the id counter, and golden links pointing at existing goldens. -/
def WellFormed (db : Db) : Prop :=
  (db.records.map (fun r => r.id)).Nodup ∧
  (db.goldens.map (fun g => g.id)).Nodup ∧
  (∀ g ∈ db.goldens, g.id < db.nextGid) ∧
  (∀ r ∈ db.records, ∀ gid, r.golden_record_id = some gid →
    ∃ g ∈ db.goldens, g.id = gid)

instance (db : Db) : Decidable (WellFormed db) := by
  unfold WellFormed
  infer_instance

theorem eq_of_id_eq (l : List CustomerRecord)
    (hnd : (l.map (fun r => r.id)).Nodup) {x y : CustomerRecord}
    (hx : x ∈ l) (hy : y ∈ l) (h : x.id = y.id) : x = y := by
  obtain ⟨i, hi, rfl⟩ := List.getElem_of_mem hx
  obtain ⟨j, hj, rfl⟩ := List.getElem_of_mem hy
  have := getElem?_id_inj l hnd i j _ _
    (List.getElem?_eq_some.mpr ⟨hi, rfl⟩) (List.getElem?_eq_some.mpr ⟨hj, rfl⟩) h
  subst this
  rfl

theorem nodup_of_id_nodup (l : List CustomerRecord)
    (hnd : (l.map (fun r => r.id)).Nodup) : l.Nodup :=
  List.Nodup.of_map _ hnd

/-- Decompose a record list around one member with a unique id. -/
theorem one_id_decomp (l : List CustomerRecord)
    (hnd : (l.map (fun r => r.id)).Nodup) (a : CustomerRecord) (ha : a ∈ l) :
    ∃ rest, l.Perm (a :: rest) ∧ (∀ r ∈ rest, r.id ≠ a.id) ∧
      (∀ r ∈ rest, r ∈ l) := by
  have hl := nodup_of_id_nodup l hnd
  refine ⟨l.erase a, List.perm_cons_erase ha, ?_, fun r hr => List.mem_of_mem_erase hr⟩
  intro r hr hid
  have hrl : r ∈ l := List.mem_of_mem_erase hr
  have : r = a := eq_of_id_eq l hnd hrl ha hid
  subst this
  exact (List.Nodup.not_mem_erase hl) hr

/-- Decompose a record list around two members with distinct unique ids. -/
theorem two_ids_decomp (l : List CustomerRecord)
    (hnd : (l.map (fun r => r.id)).Nodup) (a b : CustomerRecord)
    (ha : a ∈ l) (hb : b ∈ l) (hab : a.id ≠ b.id) :
    ∃ rest, l.Perm (a :: b :: rest) ∧
      (∀ r ∈ rest, r.id ≠ a.id ∧ r.id ≠ b.id) ∧ (∀ r ∈ rest, r ∈ l) := by
  have hl := nodup_of_id_nodup l hnd
  have hba : b ≠ a := fun h => hab (by rw [h])
  have hb2 : b ∈ l.erase a := (List.mem_erase_of_ne hba).mpr hb
  refine ⟨(l.erase a).erase b,
    (List.perm_cons_erase ha).trans (List.Perm.cons a (List.perm_cons_erase hb2)), ?_, ?_⟩
  · intro r hr
    have hrl : r ∈ l := List.mem_of_mem_erase (List.mem_of_mem_erase hr)
    constructor
    · intro hid
      have : r = a := eq_of_id_eq l hnd hrl ha hid
      subst this
      exact (List.Nodup.not_mem_erase hl) (List.mem_of_mem_erase hr)
    · intro hid
      have : r = b := eq_of_id_eq l hnd hrl hb hid
      subst this
      exact (List.Nodup.not_mem_erase (hl.erase a)) hr
  · exact fun r hr => List.mem_of_mem_erase (List.mem_of_mem_erase hr)

theorem relinkRecord_id (aid bid : String) (gid : Nat) (r : CustomerRecord) :
    (relinkRecord aid bid gid r).id = r.id := by
  unfold relinkRecord
  by_cases h : r.id = aid ∨ r.id = bid
  · rw [if_pos h]
  · rw [if_neg h]

theorem relinkRecord_hit (aid bid : String) (gid : Nat) (r : CustomerRecord)
    (h : r.id = aid ∨ r.id = bid) :
    relinkRecord aid bid gid r = { r with golden_record_id := some gid } := by
  unfold relinkRecord
  rw [if_pos h]

theorem relinkRecord_miss (aid bid : String) (gid : Nat) (r : CustomerRecord)
    (h1 : r.id ≠ aid) (h2 : r.id ≠ bid) : relinkRecord aid bid gid r = r := by
  unfold relinkRecord
  rw [if_neg (by rintro (h | h) <;> [exact h1 h; exact h2 h])]

theorem ids_map_relink (l : List CustomerRecord) (aid bid : String) (gid : Nat) :
    (l.map (relinkRecord aid bid gid)).map (fun r => r.id) = l.map (fun r => r.id) := by
  rw [List.map_map]
  exact List.map_congr_left (fun r _ => relinkRecord_id aid bid gid r)

theorem find?_relink_other (l : List CustomerRecord) (aid bid : String) (gid : Nat)
    (rid : String) (h1 : rid ≠ aid) (h2 : rid ≠ bid) :
    (l.map (relinkRecord aid bid gid)).find? (fun x => x.id == rid) =
      l.find? (fun x => x.id == rid) := by
  induction l with
  | nil => rfl
  | cons r rest ih =>
    simp only [List.map_cons, List.find?_cons]
    rw [relinkRecord_id]
    by_cases hr : r.id = rid
    · simp only [hr, beq_self_eq_true]
      rw [relinkRecord_miss _ _ _ _ (by rw [hr]; exact h1) (by rw [hr]; exact h2)]
    · simp only [beq_eq_false_iff_ne.mpr hr, ih]

theorem find?_relink_self (l : List CustomerRecord) (rid : String) (gid : Nat) :
    (l.map (relinkRecord rid rid gid)).find? (fun x => x.id == rid) =
      (l.find? (fun x => x.id == rid)).map
        (fun r => { r with golden_record_id := some gid }) := by
  induction l with
  | nil => rfl
  | cons r rest ih =>
    simp only [List.map_cons, List.find?_cons]
    rw [relinkRecord_id]
    by_cases hr : r.id = rid
    · simp only [beq_iff_eq.mpr hr, relinkRecord_hit rid rid gid r (Or.inl hr), Option.map]
    · simp only [beq_eq_false_iff_ne.mpr hr, ih]

theorem find?_id_of_mem (l : List CustomerRecord)
    (hnd : (l.map (fun r => r.id)).Nodup) (r : CustomerRecord) (hr : r ∈ l) :
    l.find? (fun x => x.id == r.id) = some r := by
  induction l with
  | nil => cases hr
  | cons h rest ih =>
    simp only [List.find?_cons]
    by_cases hh : h.id = r.id
    · have : h = r := eq_of_id_eq (h :: rest) hnd (List.mem_cons_self _ _) hr hh
      simp [beq_iff_eq.mpr hh, this]
    · have hrr : r ∈ rest := by
        rcases List.mem_cons.mp hr with h1 | h1
        · exact absurd (by rw [h1]) hh
        · exact h1
      simp only [beq_eq_false_iff_ne.mpr hh]
      exact ih (by simpa using (List.nodup_cons.mp (by simpa using hnd)).2) hrr

theorem linkedCount_perm (l l2 : List CustomerRecord) (h : l.Perm l2) (gid : Nat) :
    linkedCount l gid = linkedCount l2 gid :=
  (List.Perm.length_eq (List.Perm.filter _ h))

theorem linkedCount_cons (r : CustomerRecord) (rest : List CustomerRecord) (gid : Nat) :
    linkedCount (r :: rest) gid =
      (if r.golden_record_id == some gid then 1 else 0) + linkedCount rest gid := by
  unfold linkedCount
  rw [List.filter_cons]
  by_cases h : r.golden_record_id == some gid
  · simp [h]
    omega
  · simp [h]

theorem linkedCount_eq_zero (l : List CustomerRecord) (gid : Nat)
    (h : ∀ r ∈ l, r.golden_record_id ≠ some gid) : linkedCount l gid = 0 := by
  unfold linkedCount
  rw [List.filter_eq_nil_iff.mpr (fun r hr => by simpa using h r hr)]
  rfl

theorem map_relink_untouched (rest : List CustomerRecord) (aid bid : String) (gid : Nat)
    (h : ∀ r ∈ rest, r.id ≠ aid ∧ r.id ≠ bid) :
    rest.map (relinkRecord aid bid gid) = rest := by
  rw [List.map_congr_left (fun r hr => relinkRecord_miss aid bid gid r (h r hr).1 (h r hr).2)]
  exact List.map_id _


theorem linkedCount_cons2 (r : CustomerRecord) (rest : List CustomerRecord) (gid : Nat) :
    linkedCount (r :: rest) gid =
      (if r.golden_record_id = some gid then 1 else 0) + linkedCount rest gid := by
  rw [linkedCount_cons]
  congr 1
  by_cases h : r.golden_record_id = some gid
  · simp [h]
  · simp [h]

theorem applyPlan_id (v : Field → Option String) (g : GoldenRecord) :
    (applyPlan v g).id = g.id := rfl

theorem newGolden_id (gid : Nat) (v : Field → Option String) :
    (newGolden gid v).id = gid := rfl

/-- Merge preserves the golden-count invariant whenever at most one of the
two records is already linked. -/
theorem merge_preserves_invariant (db : Db) (match_id : Nat)
    (surv : Option (List (Field × String))) (m : MatchCandidate) (a b : CustomerRecord)
    (hwf : WellFormed db) (hinv : GoldenCountInvariant db)
    (hm : db.candidates.find? (fun c => c.id == match_id) = some m)
    (ha : db.records.find? (fun r => r.id == m.record_a_id) = some a)
    (hb : db.records.find? (fun r => r.id == m.record_b_id) = some b)
    (hab : m.record_a_id ≠ m.record_b_id)
    (hone : a.golden_record_id = none ∨ b.golden_record_id = none) :
    ∃ p, merge_records db match_id surv = .ok p ∧ GoldenCountInvariant p.2 := by
  obtain ⟨hndr, hndg, hbound, hlinks⟩ := hwf
  have haid : a.id = m.record_a_id := by simpa using List.find?_some ha
  have hbid : b.id = m.record_b_id := by simpa using List.find?_some hb
  have hamem : a ∈ db.records := List.mem_of_find?_eq_some ha
  have hbmem : b ∈ db.records := List.mem_of_find?_eq_some hb
  have habid : a.id ≠ b.id := by rw [haid, hbid]; exact hab
  obtain ⟨rest, hperm, hrest, hrestmem⟩ :=
    two_ids_decomp db.records hndr a b hamem hbmem habid
  have horig : ∀ tid, linkedCount db.records tid =
      (if a.golden_record_id = some tid then 1 else 0) +
      ((if b.golden_record_id = some tid then 1 else 0) + linkedCount rest tid) := by
    intro tid
    rw [linkedCount_perm _ _ hperm, linkedCount_cons2, linkedCount_cons2]
  have hnew : ∀ gid tid,
      linkedCount (db.records.map (relinkRecord m.record_a_id m.record_b_id gid)) tid =
      (if gid = tid then 1 else 0) + ((if gid = tid then 1 else 0) + linkedCount rest tid) := by
    intro gid tid
    rw [linkedCount_perm _ _ (List.Perm.map _ hperm)]
    rw [show (a :: b :: rest).map (relinkRecord m.record_a_id m.record_b_id gid) =
      ({ a with golden_record_id := some gid } ::
        { b with golden_record_id := some gid } :: rest) by
        simp only [List.map_cons]
        rw [relinkRecord_hit _ _ _ a (Or.inl haid), relinkRecord_hit _ _ _ b (Or.inr hbid),
          map_relink_untouched rest _ _ _ (fun r hr =>
            ⟨by rw [← haid]; exact (hrest r hr).1, by rw [← hbid]; exact (hrest r hr).2⟩)]]
    rw [linkedCount_cons2, linkedCount_cons2]
    simp only [Option.some.injEq]
  cases hga : a.golden_record_id with
  | some gid =>
    have hbnone : b.golden_record_id = none := by
      rcases hone with h | h
      · rw [hga] at h; cases h
      · exact h
    have hsome : (db.goldens.find? (fun g => g.id == gid)).isSome := by
      obtain ⟨g1, hg1mem, hg1id⟩ := hlinks a hamem gid hga
      exact List.find?_isSome.mpr ⟨g1, hg1mem, beq_iff_eq.mpr hg1id⟩
    obtain ⟨g1, hg1⟩ := Option.isSome_iff_exists.mp hsome
    have hg1id : g1.id = gid := by simpa using List.find?_some hg1
    have hg1mem : g1 ∈ db.goldens := List.mem_of_find?_eq_some hg1
    refine ⟨(applyPlan (mergePlan surv a b) g1,
      { db with
        goldens := db.goldens.map (fun g2 =>
          if g2.id = g1.id then applyPlan (mergePlan surv a b) g1 else g2),
        records := db.records.map (relinkRecord m.record_a_id m.record_b_id
          (applyPlan (mergePlan surv a b) g1).id),
        candidates := candMerged db.candidates match_id }),
      by simp only [merge_records, hm, ha, hb, hga, hg1], ?_⟩
    simp only [GoldenCountInvariant, applyPlan_id]
    intro g hg
    simp only [List.mem_map] at hg
    obtain ⟨g2, hg2mem, hg2eq⟩ := hg
    by_cases hcase : g2.id = g1.id
    · rw [if_pos hcase] at hg2eq
      subst hg2eq
      obtain ⟨hc1, hc2⟩ := hinv g1 hg1mem
      rw [horig, if_pos (by rw [hga, hg1id]), hbnone, if_neg (by intro h; cases h)] at hc2
      constructor
      · simp only [applyPlan]
        omega
      · show g1.source_count + 1 = _
        simp only [applyPlan_id]
        rw [hnew, if_pos (rfl : g1.id = g1.id)]
        omega
    · rw [if_neg hcase] at hg2eq
      subst hg2eq
      obtain ⟨hc1, hc2⟩ := hinv g2 hg2mem
      rw [horig, hga, if_neg (by simp; intro h; exact hcase (by rw [hg1id, h])),
        hbnone, if_neg (by intro h; cases h)] at hc2
      refine ⟨hc1, ?_⟩
      rw [hnew, if_neg (fun h => hcase h.symm)]
      omega
  | none =>
    cases hgb : b.golden_record_id with
    | some gid =>
      have hsome : (db.goldens.find? (fun g => g.id == gid)).isSome := by
        obtain ⟨g1, hg1mem, hg1id⟩ := hlinks b hbmem gid hgb
        exact List.find?_isSome.mpr ⟨g1, hg1mem, beq_iff_eq.mpr hg1id⟩
      obtain ⟨g1, hg1⟩ := Option.isSome_iff_exists.mp hsome
      have hg1id : g1.id = gid := by simpa using List.find?_some hg1
      have hg1mem : g1 ∈ db.goldens := List.mem_of_find?_eq_some hg1
      refine ⟨(applyPlan (mergePlan surv a b) g1,
        { db with
          goldens := db.goldens.map (fun g2 =>
            if g2.id = g1.id then applyPlan (mergePlan surv a b) g1 else g2),
          records := db.records.map (relinkRecord m.record_a_id m.record_b_id
            (applyPlan (mergePlan surv a b) g1).id),
          candidates := candMerged db.candidates match_id }),
        by simp only [merge_records, hm, ha, hb, hga, hgb, hg1], ?_⟩
      simp only [GoldenCountInvariant, applyPlan_id]
      intro g hg
      simp only [List.mem_map] at hg
      obtain ⟨g2, hg2mem, hg2eq⟩ := hg
      by_cases hcase : g2.id = g1.id
      · rw [if_pos hcase] at hg2eq
        subst hg2eq
        obtain ⟨hc1, hc2⟩ := hinv g1 hg1mem
        rw [horig, hga, if_neg (by intro h; cases h),
          if_pos (by rw [hgb, hg1id])] at hc2
        constructor
        · simp only [applyPlan]
          omega
        · show g1.source_count + 1 = _
          simp only [applyPlan_id]
          rw [hnew, if_pos (rfl : g1.id = g1.id)]
          omega
      · rw [if_neg hcase] at hg2eq
        subst hg2eq
        obtain ⟨hc1, hc2⟩ := hinv g2 hg2mem
        rw [horig, hga, if_neg (by intro h; cases h),
          hgb, if_neg (by simp; intro h; exact hcase (by rw [hg1id, h]))] at hc2
        refine ⟨hc1, ?_⟩
        rw [hnew, if_neg (fun h => hcase h.symm)]
        omega
    | none =>
      refine ⟨(newGolden db.nextGid (mergePlan surv a b),
        { db with
          goldens := db.goldens ++ [newGolden db.nextGid (mergePlan surv a b)],
          nextGid := db.nextGid + 1,
          records := db.records.map (relinkRecord m.record_a_id m.record_b_id
            (newGolden db.nextGid (mergePlan surv a b)).id),
          candidates := candMerged db.candidates match_id }),
        by simp only [merge_records, hm, ha, hb, hga, hgb], ?_⟩
      simp only [GoldenCountInvariant, newGolden_id]
      intro g hg
      rcases List.mem_append.mp hg with hgold | hgnew
      · obtain ⟨hc1, hc2⟩ := hinv g hgold
        rw [horig, hga, if_neg (by intro h; cases h),
          hgb, if_neg (by intro h; cases h)] at hc2
        refine ⟨hc1, ?_⟩
        rw [hnew, if_neg (by have := hbound g hgold; omega)]
        omega
      · rw [List.mem_singleton] at hgnew
        subst hgnew
        have hrest0 : linkedCount rest db.nextGid = 0 := by
          apply linkedCount_eq_zero
          intro r hr hcontra
          obtain ⟨g3, hg3mem, hg3id⟩ := hlinks r (hrestmem r hr) db.nextGid hcontra
          have := hbound g3 hg3mem
          omega
        constructor
        · show 1 ≤ 2
          omega
        · show 2 = _
          simp only [newGolden_id]
          rw [hnew, if_pos (rfl : db.nextGid = db.nextGid), hrest0]


/-- Single-record promotion of an unlinked record: explicit result, and
preservation of both well-formedness and the golden-count invariant. -/
theorem create_single_preserves (db : Db) (r : CustomerRecord)
    (hwf : WellFormed db) (hinv : GoldenCountInvariant db)
    (hr : r ∈ db.records) (hun : r.golden_record_id = none) :
    create_golden_from_single db r.id = .ok
      ((⟨db.nextGid, r.fields, 1⟩ : GoldenRecord),
      { db with
        goldens := db.goldens ++ [⟨db.nextGid, r.fields, 1⟩],
        nextGid := db.nextGid + 1,
        records := db.records.map (relinkRecord r.id r.id db.nextGid) }) ∧
    WellFormed
      { db with
        goldens := db.goldens ++ [⟨db.nextGid, r.fields, 1⟩],
        nextGid := db.nextGid + 1,
        records := db.records.map (relinkRecord r.id r.id db.nextGid) } ∧
    GoldenCountInvariant
      { db with
        goldens := db.goldens ++ [⟨db.nextGid, r.fields, 1⟩],
        nextGid := db.nextGid + 1,
        records := db.records.map (relinkRecord r.id r.id db.nextGid) } := by
  obtain ⟨hndr, hndg, hbound, hlinks⟩ := hwf
  obtain ⟨rest, hperm, hrest, hrestmem⟩ := one_id_decomp db.records hndr r hr
  have horig : ∀ tid, linkedCount db.records tid =
      (if r.golden_record_id = some tid then 1 else 0) + linkedCount rest tid := by
    intro tid
    rw [linkedCount_perm _ _ hperm, linkedCount_cons2]
  have hnew : ∀ tid,
      linkedCount (db.records.map (relinkRecord r.id r.id db.nextGid)) tid =
      (if db.nextGid = tid then 1 else 0) + linkedCount rest tid := by
    intro tid
    rw [linkedCount_perm _ _ (List.Perm.map _ hperm)]
    rw [show (r :: rest).map (relinkRecord r.id r.id db.nextGid) =
      ({ r with golden_record_id := some db.nextGid } :: rest) by
        simp only [List.map_cons]
        rw [relinkRecord_hit _ _ _ r (Or.inl rfl),
          map_relink_untouched rest _ _ _ (fun x hx => ⟨(hrest x hx), (hrest x hx)⟩)]]
    rw [linkedCount_cons2]
    simp only [Option.some.injEq]
  refine ⟨?_, ⟨?_, ?_, ?_, ?_⟩, ?_⟩
  · simp only [create_golden_from_single, find?_id_of_mem db.records hndr r hr]
  · rw [ids_map_relink]
    exact hndr
  · rw [List.map_append]
    refine List.Nodup.append hndg (List.nodup_singleton _) ?_
    intro x hx hx2
    rw [List.mem_map] at hx
    obtain ⟨g, hgmem, rfl⟩ := hx
    simp only [List.map_cons, List.map_nil, List.mem_singleton] at hx2
    have := hbound g hgmem
    omega
  · intro g hg
    rcases List.mem_append.mp hg with h | h
    · exact Nat.lt_succ_of_lt (hbound g h)
    · rw [List.mem_singleton] at h
      subst h
      exact Nat.lt_succ_self db.nextGid
  · intro r2 hr2 gid hgid
    simp only [List.mem_map] at hr2
    obtain ⟨r3, hr3mem, rfl⟩ := hr2
    by_cases hc : r3.id = r.id
    · rw [relinkRecord_hit _ _ _ r3 (Or.inl hc)] at hgid
      simp only [Option.some.injEq] at hgid
      exact ⟨⟨db.nextGid, r.fields, 1⟩, List.mem_append.mpr (Or.inr (List.mem_singleton.mpr rfl)),
        by simp [← hgid]⟩
    · rw [relinkRecord_miss _ _ _ r3 hc hc] at hgid
      obtain ⟨g, hgmem, hgid2⟩ := hlinks r3 hr3mem gid hgid
      exact ⟨g, List.mem_append.mpr (Or.inl hgmem), hgid2⟩
  · intro g hg
    rcases List.mem_append.mp hg with h | h
    · obtain ⟨hc1, hc2⟩ := hinv g h
      rw [horig, hun, if_neg (by intro hx; cases hx)] at hc2
      refine ⟨hc1, ?_⟩
      rw [hnew, if_neg (by have := hbound g h; omega)]
      omega
    · rw [List.mem_singleton] at h
      subst h
      have hrest0 : linkedCount rest db.nextGid = 0 := by
        apply linkedCount_eq_zero
        intro x hx hcontra
        obtain ⟨g3, hg3mem, hg3id⟩ := hlinks x (hrestmem x hx) db.nextGid hcontra
        have := hbound g3 hg3mem
        omega
      exact ⟨Nat.le_refl 1, by
        show 1 = _
        rw [hnew, if_pos (rfl : db.nextGid = db.nextGid), hrest0]⟩

theorem promoteLoop_preserves_invariant :
    ∀ (L : List String) (db : Db) (count : Nat),
      WellFormed db → GoldenCountInvariant db → L.Nodup →
      (∀ rid ∈ L, ∃ r, db.records.find? (fun x => x.id == rid) = some r ∧
        r.golden_record_id = none) →
      ∃ p, promoteLoop L db count = .ok p ∧ WellFormed p.2 ∧ GoldenCountInvariant p.2 := by
  intro L
  induction L with
  | nil =>
    intro db count hwf hinv _ _
    exact ⟨(count, db), rfl, hwf, hinv⟩
  | cons rid rest ih =>
    intro db count hwf hinv hnd hL
    obtain ⟨hnotin, hndrest⟩ := List.nodup_cons.mp hnd
    by_cases hp : hasPendingMatch db.candidates rid = true
    · simp only [promoteLoop, if_pos hp]
      exact ih db count hwf hinv hndrest
        (fun rid2 h2 => hL rid2 (List.mem_cons_of_mem _ h2))
    · obtain ⟨r, hfind, hnone⟩ := hL rid (List.mem_cons_self _ _)
      have hrid : r.id = rid := by simpa using List.find?_some hfind
      have hrmem := List.mem_of_find?_eq_some hfind
      obtain ⟨heq, hwf2, hinv2⟩ := create_single_preserves db r hwf hinv hrmem hnone
      simp only [promoteLoop, if_neg hp]
      rw [← hrid, heq]
      apply ih _ (count + 1) hwf2 hinv2 hndrest
      intro rid2 h2
      obtain ⟨r2, hfind2, hnone2⟩ := hL rid2 (List.mem_cons_of_mem _ h2)
      refine ⟨r2, ?_, hnone2⟩
      show (db.records.map (relinkRecord r.id r.id db.nextGid)).find?
        (fun x => x.id == rid2) = some r2
      rw [find?_relink_other db.records r.id r.id db.nextGid rid2 ?hne ?hne]
      · exact hfind2
      case hne =>
        intro hcontra
        rw [hcontra, hrid] at h2
        exact hnotin h2

theorem promote_preserves_invariant (db : Db)
    (hwf : WellFormed db) (hinv : GoldenCountInvariant db) :
    ∃ p, promote_unmatched_to_golden db = .ok p ∧
      WellFormed p.2 ∧ GoldenCountInvariant p.2 := by
  unfold promote_unmatched_to_golden
  apply promoteLoop_preserves_invariant _ db 0 hwf hinv
  · have hsub : List.Sublist ((db.records.filter
        (fun r => r.golden_record_id.isNone)).map (fun r => r.id))
        (db.records.map (fun r => r.id)) :=
      (List.filter_sublist _).map _
    exact hwf.1.sublist hsub
  · intro rid hrid
    rw [List.mem_map] at hrid
    obtain ⟨r, hrmem, rfl⟩ := hrid
    obtain ⟨hmem, hnone⟩ := List.mem_filter.mp hrmem
    exact ⟨r, find?_id_of_mem db.records hwf.1 r hmem,
      Option.isNone_iff_eq_none.mp (by simpa using hnone)⟩

/-- C3 store for the counterexample: two fresh records and one PENDING
candidate over them. -/
def dbTwice : Db :=
  ⟨[⟨"a", "s1", (fun _ => ""), none⟩, ⟨"b", "s1", (fun _ => ""), none⟩],
   [⟨0, "a", "b", 1, [], "rule_based_v1", .pending, none⟩], [], 1, 0⟩

/-- C3, counterexample: merging the same candidate twice (nothing blocks
the second merge) leaves golden 0 with `source_count = 3` while only the
two records link to it, so the source-count invariant is not preserved by
every operation. -/
theorem golden_invariant_counterexample :
    ((merge_records dbTwice 0 none).toOption.bind
      (fun p => (merge_records p.2 0 none).toOption)).map
      (fun p => (p.2.goldens.map (fun g => (g.id, g.source_count)),
                 linkedCount p.2.records 0,
                 decide (GoldenCountInvariant p.2))) = some ([(0, 3)], 2, false) := by
  with_unfolding_all decide

/-- C3 as amended: a CustomerRecord links to at most one golden by the
shape of the data model, and on well-formed stores the source-count
invariant (`source_count ≥ 1` and equal to the number of linked records)
is preserved by merge whenever at most one of the two records is already
linked, by single-record promotion of an unlinked record, and by
`promote_unmatched`; a merge whose two records are both already linked
(for example re-merging a merged candidate) can break it. -/
theorem golden_invariant_preservation :
    (∀ (db : Db) (match_id : Nat) (surv : Option (List (Field × String)))
       (m : MatchCandidate) (a b : CustomerRecord),
      WellFormed db → GoldenCountInvariant db →
      db.candidates.find? (fun c => c.id == match_id) = some m →
      db.records.find? (fun x => x.id == m.record_a_id) = some a →
      db.records.find? (fun x => x.id == m.record_b_id) = some b →
      m.record_a_id ≠ m.record_b_id →
      (a.golden_record_id = none ∨ b.golden_record_id = none) →
      ∃ p, merge_records db match_id surv = .ok p ∧ GoldenCountInvariant p.2) ∧
    (∀ (db : Db) (r : CustomerRecord), WellFormed db → GoldenCountInvariant db →
      r ∈ db.records → r.golden_record_id = none →
      ∃ p, create_golden_from_single db r.id = .ok p ∧ GoldenCountInvariant p.2) ∧
    (∀ db : Db, WellFormed db → GoldenCountInvariant db →
      ∃ p, promote_unmatched_to_golden db = .ok p ∧ GoldenCountInvariant p.2) := by
  refine ⟨?_, ?_, ?_⟩
  · intro db match_id surv m a b hwf hinv hm ha hb hab hone
    exact merge_preserves_invariant db match_id surv m a b hwf hinv hm ha hb hab hone
  · intro db r hwf hinv hr hun
    obtain ⟨heq, _, hinv2⟩ := create_single_preserves db r hwf hinv hr hun
    exact ⟨_, heq, hinv2⟩
  · intro db hwf hinv
    obtain ⟨p, heq, _, hinv2⟩ := promote_preserves_invariant db hwf hinv
    exact ⟨p, heq, hinv2⟩

/-- Witness for the amended C3: one merge on a concrete well-formed store
and one promotion on the same store. -/
theorem golden_invariant_preservation_witness :
    (∃ p, merge_records dbTwice 0 none = .ok p ∧ GoldenCountInvariant p.2) ∧
    (∃ p, promote_unmatched_to_golden dbTwice = .ok p ∧ GoldenCountInvariant p.2) :=
  ⟨golden_invariant_preservation.1 dbTwice 0 none
      ⟨0, "a", "b", 1, [], "rule_based_v1", .pending, none⟩
      ⟨"a", "s1", (fun _ => ""), none⟩ ⟨"b", "s1", (fun _ => ""), none⟩
      (by with_unfolding_all decide) (by with_unfolding_all decide) rfl rfl rfl
      (by decide) (Or.inl rfl),
   golden_invariant_preservation.2.2 dbTwice
      (by with_unfolding_all decide) (by with_unfolding_all decide)⟩


/-! ## Promotion: functional specification and idempotence (C7) -/

theorem create_single_eq (db : Db) (r : CustomerRecord)
    (hnd : (db.records.map (fun x => x.id)).Nodup) (hr : r ∈ db.records) :
    create_golden_from_single db r.id = .ok
      ((⟨db.nextGid, r.fields, 1⟩ : GoldenRecord),
      { db with
        goldens := db.goldens ++ [⟨db.nextGid, r.fields, 1⟩],
        nextGid := db.nextGid + 1,
        records := db.records.map (relinkRecord r.id r.id db.nextGid) }) := by
  simp only [create_golden_from_single, find?_id_of_mem db.records hnd r hr]

theorem promoteLoop_all_pending :
    ∀ (L : List String) (db : Db) (count : Nat),
      (∀ rid ∈ L, hasPendingMatch db.candidates rid = true) →
      promoteLoop L db count = .ok (count, db) := by
  intro L
  induction L with
  | nil =>
    intro db count _
    rfl
  | cons rid rest ih =>
    intro db count h
    simp only [promoteLoop, if_pos (h rid (List.mem_cons_self _ _))]
    exact ih db count (fun rid2 h2 => h rid2 (List.mem_cons_of_mem _ h2))

theorem promoteLoop_spec :
    ∀ (L : List String) (d : Db) (count : Nat),
      (d.records.map (fun r => r.id)).Nodup → L.Nodup →
      (∀ rid ∈ L, ∃ r, d.records.find? (fun x => x.id == rid) = some r ∧
        r.golden_record_id = none) →
      ∃ db2, promoteLoop L d count =
          .ok (count + (L.filter (fun rid => !(hasPendingMatch d.candidates rid))).length,
            db2) ∧
        db2.candidates = d.candidates ∧
        db2.records.map (fun r => r.id) = d.records.map (fun r => r.id) ∧
        (∃ gs, db2.goldens = d.goldens ++ gs) ∧
        (∀ rid, rid ∉ L →
          db2.records.find? (fun x => x.id == rid) =
            d.records.find? (fun x => x.id == rid)) ∧
        (∀ rid ∈ L, hasPendingMatch d.candidates rid = false →
          ∀ r3, d.records.find? (fun x => x.id == rid) = some r3 →
          ∃ g ∈ db2.goldens, g.source_count = 1 ∧ g.fields = r3.fields ∧
            db2.records.find? (fun x => x.id == rid) =
              some { r3 with golden_record_id := some g.id }) ∧
        (∀ r2 ∈ db2.records, r2.golden_record_id = none →
          r2 ∈ d.records ∧ (r2.id ∈ L → hasPendingMatch d.candidates r2.id = true)) := by
  intro L
  induction L with
  | nil =>
    intro d count hnd hLnd hL
    refine ⟨d, by simp [promoteLoop], rfl, rfl, ⟨[], by simp⟩, fun _ _ => rfl,
      fun rid h => absurd h (List.not_mem_nil _),
      fun r2 h2 hn => ⟨h2, fun h => absurd h (List.not_mem_nil _)⟩⟩
  | cons rid rest ih =>
    intro d count hnd hLnd hL
    obtain ⟨hnotin, hndrest⟩ := List.nodup_cons.mp hLnd
    by_cases hp : hasPendingMatch d.candidates rid = true
    · obtain ⟨db2, heq, hcand, hids, hgold, huntouched, hproc, hnone2⟩ :=
        ih d count hnd hndrest (fun rid2 h2 => hL rid2 (List.mem_cons_of_mem _ h2))
      refine ⟨db2, ?_, hcand, hids, hgold, ?_, ?_, ?_⟩
      · have hf : ((rid :: rest).filter (fun x => !(hasPendingMatch d.candidates x))) =
            rest.filter (fun x => !(hasPendingMatch d.candidates x)) := by
          simp [List.filter_cons, hp]
        simp only [promoteLoop, if_pos hp, hf]
        exact heq
      · intro rid2 h2
        exact huntouched rid2 (fun hc => h2 (List.mem_cons_of_mem _ hc))
      · intro rid2 h2 hnp r3 hfind3
        rcases List.mem_cons.mp h2 with h | h
        · subst h
          rw [hnp] at hp
          cases hp
        · exact hproc rid2 h hnp r3 hfind3
      · intro r2 h2 hn
        obtain ⟨hmem, himp⟩ := hnone2 r2 h2 hn
        refine ⟨hmem, ?_⟩
        intro hin
        rcases List.mem_cons.mp hin with h | h
        · rw [h]
          exact hp
        · exact himp h
    · obtain ⟨r, hfind, hnone⟩ := hL rid (List.mem_cons_self _ _)
      have hrid : r.id = rid := by simpa using List.find?_some hfind
      have hrmem := List.mem_of_find?_eq_some hfind
      have heqc := create_single_eq d r hnd hrmem
      set g0 : GoldenRecord := ⟨d.nextGid, r.fields, 1⟩ with hg0
      set d2 : Db := { d with
        goldens := d.goldens ++ [g0],
        nextGid := d.nextGid + 1,
        records := d.records.map (relinkRecord r.id r.id d.nextGid) } with hd2
      have hcand2 : d2.candidates = d.candidates := rfl
      have hnd2 : (d2.records.map (fun x => x.id)).Nodup := by
        show ((d.records.map (relinkRecord r.id r.id d.nextGid)).map (fun x => x.id)).Nodup
        rw [ids_map_relink]
        exact hnd
      have hother : ∀ rid2, rid2 ≠ rid →
          d2.records.find? (fun x => x.id == rid2) =
            d.records.find? (fun x => x.id == rid2) := by
        intro rid2 hne
        show (d.records.map (relinkRecord r.id r.id d.nextGid)).find? _ = _
        rw [find?_relink_other d.records r.id r.id d.nextGid rid2
          (by rw [hrid]; exact hne) (by rw [hrid]; exact hne)]
      have hL2 : ∀ rid2 ∈ rest, ∃ r2, d2.records.find? (fun x => x.id == rid2) = some r2 ∧
          r2.golden_record_id = none := by
        intro rid2 h2
        obtain ⟨r2, hf2, hn2⟩ := hL rid2 (List.mem_cons_of_mem _ h2)
        exact ⟨r2, by rw [hother rid2 (fun hc => hnotin (hc ▸ h2))]; exact hf2, hn2⟩
      obtain ⟨db2, heq, hcand, hids, ⟨gs, hgs⟩, huntouched, hproc, hnone2⟩ :=
        ih d2 (count + 1) hnd2 hndrest hL2
      refine ⟨db2, ?_, hcand.trans hcand2, ?_, ?_, ?_, ?_, ?_⟩
      · simp only [promoteLoop, if_neg hp]
        rw [← hrid, heqc]
        show promoteLoop rest d2 (count + 1) = _
        rw [hcand2] at heq
        rw [heq]
        have hpf : hasPendingMatch d.candidates r.id = false := by
          rw [hrid]; exact Bool.eq_false_iff.mpr hp
        simp [List.filter_cons, hpf]
        omega
      · exact hids.trans (ids_map_relink d.records r.id r.id d.nextGid)
      · refine ⟨[g0] ++ gs, ?_⟩
        rw [hgs, hd2]
        simp [List.append_assoc]
      · intro rid2 h2
        have h2r : rid2 ∉ rest := fun hc => h2 (List.mem_cons_of_mem _ hc)
        have h2h : rid2 ≠ rid := fun hc => h2 (hc ▸ List.mem_cons_self _ _)
        rw [huntouched rid2 h2r, hother rid2 h2h]
      · intro rid2 h2 hnp r3 hfind3
        rcases List.mem_cons.mp h2 with h | h
        · subst h
          have hr3 : r3 = r := by
            rw [hfind] at hfind3
            exact (Option.some.injEq _ _).mp hfind3.symm
          subst hr3
          refine ⟨g0, ?_, rfl, rfl, ?_⟩
          · rw [hgs, hd2]
            simp
          · rw [huntouched rid2 hnotin]
            show (d.records.map (relinkRecord r3.id r3.id d.nextGid)).find? _ = _
            rw [← hrid] at hfind ⊢
            rw [find?_relink_self d.records r3.id d.nextGid, hfind]
            rfl
        · obtain ⟨g, hgmem, hgc, hgf, hgfind⟩ := hproc rid2 h (by rw [hcand2]; exact hnp) r3
            (by rw [hother rid2 (fun hc => hnotin (hc ▸ h))]; exact hfind3)
          exact ⟨g, hgmem, hgc, hgf, hgfind⟩
      · intro r2 h2 hn
        obtain ⟨hmem2, himp2⟩ := hnone2 r2 h2 hn
        have hmem2d : r2 ∈ d.records ∧ r2.id ≠ rid := by
          rw [hd2] at hmem2
          simp only [List.mem_map] at hmem2
          obtain ⟨r3, hr3mem, hr3eq⟩ := hmem2
          by_cases hc : r3.id = r.id
          · rw [relinkRecord_hit _ _ _ r3 (Or.inl hc)] at hr3eq
            rw [← hr3eq] at hn
            cases hn
          · rw [relinkRecord_miss _ _ _ r3 hc hc] at hr3eq
            subst hr3eq
            exact ⟨hr3mem, fun hcc => hc (by rw [hcc, hrid])⟩
        refine ⟨hmem2d.1, ?_⟩
        intro hin
        rcases List.mem_cons.mp hin with h | h
        · exact absurd h hmem2d.2
        · rw [← hcand2]
          exact himp2 h

/-- C7: `promote_unmatched` creates, for every record with no golden link
and no PENDING candidate on either side, a fresh golden with
`source_count = 1` whose Standard Fields are copied verbatim, links the
record to it, and returns the number created; run again with no
intervening changes it returns 0 and changes nothing. -/
theorem promote_unmatched_spec (db : Db)
    (hnd : (db.records.map (fun r => r.id)).Nodup) :
    ∃ c db2, promote_unmatched_to_golden db = .ok (c, db2) ∧
      c = ((db.records.filter (fun r => r.golden_record_id.isNone)).filter
            (fun r => !(hasPendingMatch db.candidates r.id))).length ∧
      db2.candidates = db.candidates ∧
      (∀ r ∈ db.records, r.golden_record_id = none →
        hasPendingMatch db.candidates r.id = false →
        ∃ g ∈ db2.goldens, g.source_count = 1 ∧ g.fields = r.fields ∧
          db2.records.find? (fun x => x.id == r.id) =
            some { r with golden_record_id := some g.id }) ∧
      promote_unmatched_to_golden db2 = .ok (0, db2) := by
  have hLnd : ((db.records.filter (fun r => r.golden_record_id.isNone)).map
      (fun r => r.id)).Nodup :=
    hnd.sublist ((List.filter_sublist _).map _)
  have hL : ∀ rid ∈ (db.records.filter (fun r => r.golden_record_id.isNone)).map
      (fun r => r.id), ∃ r, db.records.find? (fun x => x.id == rid) = some r ∧
      r.golden_record_id = none := by
    intro rid hrid
    rw [List.mem_map] at hrid
    obtain ⟨r, hrmem, rfl⟩ := hrid
    obtain ⟨hmem, hnone⟩ := List.mem_filter.mp hrmem
    exact ⟨r, find?_id_of_mem db.records hnd r hmem,
      Option.isNone_iff_eq_none.mp (by simpa using hnone)⟩
  obtain ⟨db2, heq, hcand, hids, hgold, huntouched, hproc, hnone2⟩ :=
    promoteLoop_spec _ db 0 hnd hLnd hL
  have hlen : (((db.records.filter (fun r => r.golden_record_id.isNone)).map
        (fun r => r.id)).filter (fun rid => !(hasPendingMatch db.candidates rid))).length =
      ((db.records.filter (fun r => r.golden_record_id.isNone)).filter
        (fun r => !(hasPendingMatch db.candidates r.id))).length := by
    rw [List.filter_map]
    simp [Function.comp]
  refine ⟨0 + (((db.records.filter (fun r => r.golden_record_id.isNone)).map
      (fun r => r.id)).filter
        (fun rid => !(hasPendingMatch db.candidates rid))).length,
    db2, ?_, ?_, hcand, ?_, ?_⟩
  · show promoteLoop _ db 0 = _
    exact heq
  · rw [Nat.zero_add, hlen]
  · intro r hrmem hrnone hrnp
    have hridmem : r.id ∈ (db.records.filter (fun r => r.golden_record_id.isNone)).map
        (fun r => r.id) :=
      List.mem_map.mpr ⟨r, List.mem_filter.mpr ⟨hrmem, by simp [hrnone]⟩, rfl⟩
    exact hproc r.id hridmem hrnp r (find?_id_of_mem db.records hnd r hrmem)
  · show promoteLoop ((db2.records.filter (fun r => r.golden_record_id.isNone)).map
      (fun r => r.id)) db2 0 = .ok (0, db2)
    apply promoteLoop_all_pending
    intro rid hrid
    rw [List.mem_map] at hrid
    obtain ⟨r2, hr2mem, rfl⟩ := hrid
    obtain ⟨hr2m, hr2n⟩ := List.mem_filter.mp hr2mem
    have hr2none : r2.golden_record_id = none :=
      Option.isNone_iff_eq_none.mp (by simpa using hr2n)
    obtain ⟨hr2d, himp⟩ := hnone2 r2 hr2m hr2none
    rw [hcand]
    apply himp
    exact List.mem_map.mpr ⟨r2, List.mem_filter.mpr ⟨hr2d, by simp [hr2none]⟩, rfl⟩

/-- C7 witness store: two unlinked records and no candidates. -/
def dbPromote : Db :=
  ⟨[⟨"a", "s1", (fun f => match f with | .email => "a@x.com" | _ => ""), none⟩,
    ⟨"b", "s2", (fun _ => ""), none⟩], [], [], 0, 0⟩

/-- Witness for C7 at a concrete store. -/
theorem promote_unmatched_spec_witness :
    ∃ c db2, promote_unmatched_to_golden dbPromote = .ok (c, db2) ∧
      c = ((dbPromote.records.filter (fun r => r.golden_record_id.isNone)).filter
            (fun r => !(hasPendingMatch dbPromote.candidates r.id))).length ∧
      db2.candidates = dbPromote.candidates ∧
      (∀ r ∈ dbPromote.records, r.golden_record_id = none →
        hasPendingMatch dbPromote.candidates r.id = false →
        ∃ g ∈ db2.goldens, g.source_count = 1 ∧ g.fields = r.fields ∧
          db2.records.find? (fun x => x.id == r.id) =
            some { r with golden_record_id := some g.id }) ∧
      promote_unmatched_to_golden db2 = .ok (0, db2) :=
  promote_unmatched_spec dbPromote (by decide)

end Unify
